/-
Verification of the core algorithms of the cs-homework-site repository.

The development shallowly embeds the three Python modules
`tools/unify_pages.py`, `tools/topic_expand.py` and `tools/agent_generate.py`
as executable Lean functions over `Str := List Char` and proves/refutes the
frozen claims about them.

Modelling conventions, used throughout:
* Python strings are `Str := List Char`; comparison is code-point-wise,
  exactly as in Python.
* `str.lower()` is modelled by `lowerChar` which lowers the ASCII range
  `A`-`Z`; the repository only ever lowercases ASCII identifiers and
  suggestion text.
* Python whitespace (`str.strip`, regex `\s`) is modelled by `isPySpace`,
  the ASCII whitespace characters recognised by Python's `\s`.
* `unicodedata.normalize("NFKC", s)` is modelled by the identity map:
  NFKC is the identity on the ASCII code points that survive this
  pipeline's filters, and every dedup key the code derives is built from
  such characters.
* Python's stable `list.sort(key=...)` is modelled by a stable insertion
  sort (`pySortBy`); a stable sort under a total preorder is unique, so
  this coincides with Timsort's result.
* The concrete regular expressions of the source are hand-compiled to
  string scanners with Python's leftmost-match and lazy/greedy semantics;
  `re.sub` string replacement templates get Python's escape-processing
  semantics (`tmplExpand`), which can raise (`Except.error`) exactly as
  `re.sub` raises for bad escapes or invalid group references.
-/

import Mathlib

set_option maxRecDepth 8000

/-- Python strings, as lists of Unicode code points. -/
abbrev Str : Type := List Char

/-- Convert a Lean string literal to `Str`. -/
def str (s : String) : Str := s.data

/-- The ASCII whitespace characters matched by Python's `str.strip()` and
by the regex class `\s` (space, tab, newline, carriage return, vertical
tab, form feed).  Unicode whitespace is not produced by this code base. -/
def isPySpace (c : Char) : Bool :=
  c = ' ' || c = '\t' || c = '\n' || c = '\r' || c = '\x0b' || c = '\x0c'

/-- ASCII lower-casing of one character, modelling `str.lower()` on the
character range the repository manipulates. -/
def lowerChar (c : Char) : Char :=
  if 'A' ≤ c && c ≤ 'Z' then Char.ofNat (c.toNat + 32) else c

/-- `s.lower()`. -/
def lowerStr (s : Str) : Str := s.map lowerChar

/-- Drop trailing characters satisfying `p`. -/
def dropEndWhile (p : Char → Bool) (s : Str) : Str :=
  (s.reverse.dropWhile p).reverse

/-- Python `s.strip()`: remove leading and trailing whitespace. -/
def pyStrip (s : Str) : Str :=
  dropEndWhile isPySpace (s.dropWhile isPySpace)

/-- Python `s.strip("-")`. -/
def stripHyphens (s : Str) : Str :=
  dropEndWhile (· = '-') (s.dropWhile (· = '-'))

/-- Helper for `collapseWs`: `prevWs` records whether the previous
character belonged to a whitespace run that has already emitted its
single space. -/
def collapseGo (prevWs : Bool) : Str → Str
  | [] => []
  | c :: rest =>
    if isPySpace c then
      if prevWs then collapseGo true rest else ' ' :: collapseGo true rest
    else c :: collapseGo false rest

/-- `re.sub(r"\s+", " ", s)`: replace every maximal whitespace run by a
single space. -/
def collapseWs (s : Str) : Str := collapseGo false s

/-- Does `pat` occur at the head of `s`, character for character? -/
def hdMatch : Str → Str → Bool
  | [], _ => true
  | _ :: _, [] => false
  | p :: ps, c :: cs => p = c && hdMatch ps cs

/-- Case-insensitive variant of `hdMatch` (both sides lowered). -/
def hdMatchCI : Str → Str → Bool
  | [], _ => true
  | _ :: _, [] => false
  | p :: ps, c :: cs => lowerChar p = lowerChar c && hdMatch ps cs

/-- Case-insensitive prefix test that lowers the scanned characters too. -/
def hdMatchCI' : Str → Str → Bool
  | [], _ => true
  | _ :: _, [] => false
  | p :: ps, c :: cs => lowerChar p = lowerChar c && hdMatchCI' ps cs

/-- Leftmost occurrence of `needle` in `hay` (Python `in` / `str.find`):
returns the decomposition `hay = pre ++ matched ++ post` where `matched`
is the occurrence itself. -/
def splitFirst (hay needle : Str) : Option (Str × Str × Str) :=
  match hay with
  | [] => if needle = [] then some ([], [], []) else none
  | c :: rest =>
    if hdMatch needle (c :: rest) then
      some ([], (c :: rest).take needle.length, (c :: rest).drop needle.length)
    else
      match splitFirst rest needle with
      | some (p, m, s) => some (c :: p, m, s)
      | none => none

/-- Leftmost case-insensitive occurrence of `needle` in `hay` (searches as
`re.IGNORECASE` does); returns `hay = pre ++ matched ++ post` with the
matched characters in their original case. -/
def splitFirstCI (hay needle : Str) : Option (Str × Str × Str) :=
  match hay with
  | [] => if needle = [] then some ([], [], []) else none
  | c :: rest =>
    if hdMatchCI' needle (c :: rest) then
      some ([], (c :: rest).take needle.length, (c :: rest).drop needle.length)
    else
      match splitFirstCI rest needle with
      | some (p, m, s) => some (c :: p, m, s)
      | none => none

/-- Python `needle in hay` (case sensitive). -/
def containsStr (hay needle : Str) : Bool := (splitFirst hay needle).isSome

/-- Case-insensitive containment, modelling `re.search` of a literal
pattern compiled with `re.IGNORECASE`. -/
def containsStrCI (hay needle : Str) : Bool := (splitFirstCI hay needle).isSome

/-- Helper for `replaceAll`: a positive first argument means that many
characters still belong to an already-replaced occurrence and are
skipped (structural recursion in place of dropping `old.length` at
once). -/
def replaceGo (old new : Str) : Nat → Str → Str
  | Nat.succ n, _ :: rest => replaceGo old new n rest
  | Nat.succ _, [] => []
  | 0, [] => []
  | 0, c :: rest =>
    if old ≠ [] && hdMatch old (c :: rest) then
      new ++ replaceGo old new (old.length - 1) rest
    else
      c :: replaceGo old new 0 rest

/-- Python `s.replace(old, new)` for a nonempty `old`: replace all
non-overlapping occurrences, scanning left to right. -/
def replaceAll (s old new : Str) : Str := replaceGo old new 0 s

/-- Split `s` at every occurrence of the character `sep`
(Python `s.split(sep)` for a single-character separator): adjacent
separators and boundary separators yield empty pieces. -/
def splitOnChar (sep : Char) (s : Str) : List Str :=
  match s with
  | [] => [[]]
  | c :: rest =>
    if c = sep then [] :: splitOnChar sep rest
    else
      match splitOnChar sep rest with
      | [] => [[c]]
      | p :: ps => (c :: p) :: ps

/-- Join a list of strings with the separator `sep`
(Python `sep.join(parts)`). -/
def joinWith (sep : Str) : List Str → Str
  | [] => []
  | [p] => p
  | p :: ps => p ++ sep ++ joinWith sep ps

/-- Python `s.splitlines()`: split at `\n`, `\r` and `\r\n`, not keeping
the line breaks; a trailing break produces no trailing empty line. -/
def splitlines : Str → List Str
  | [] => []
  | '\r' :: '\n' :: rest => [] :: splitlines rest
  | '\r' :: rest => [] :: splitlines rest
  | '\n' :: rest => [] :: splitlines rest
  | c :: rest =>
    match splitlines rest with
    | [] => [[c]]
    | p :: ps => (c :: p) :: ps

/-- Lexicographic (code-point) strict order on strings, Python `<`. -/
def strLt : Str → Str → Bool
  | [], [] => false
  | [], _ :: _ => true
  | _ :: _, [] => false
  | a :: as, b :: bs => a < b || (a = b && strLt as bs)

/-- Lexicographic `≤` on strings, Python `<=`. -/
def strLe (a b : Str) : Bool := strLt a b || a = b

/-- One step of a stable insertion into an already-sorted list: `x` goes
before the first element it compares `le`-true against, hence before any
equal key, preserving the original relative order of equals. -/
def insSorted (le : α → α → Bool) (x : α) : List α → List α
  | [] => [x]
  | y :: ys => if le x y then x :: y :: ys else y :: insSorted le x ys

/-- Stable insertion sort.  Python's `list.sort(key=k)` is a stable sort
under the total preorder induced by `k`; a stable sort under a total
preorder is unique, so `pySortBy` computes exactly Timsort's result. -/
def pySortBy (le : α → α → Bool) (l : List α) : List α :=
  l.foldr (insSorted le) []

/-- `s` contains no backslash character. -/
def noBackslash (s : Str) : Prop := '\\' ∉ s

instance (s : Str) : Decidable (noBackslash s) := by
  unfold noBackslash
  infer_instance

/-! ### Hand-compiled regular expressions

Each concrete pattern of the source is compiled to a scanner with Python's
leftmost-match semantics.  For the patterns of shape
`<tag[^>]*>(.*?)</tag>` the leftmost match, when it exists, always starts
at the first (case-insensitive) occurrence of the opening literal: the
greedy `[^>]*` deterministically ends at the first `>`, and if either that
`>` or the following closing literal is missing for the first occurrence
then it is missing for every later occurrence as well, so the whole
pattern fails.  The scanners below implement exactly that. -/

/-- Scanner for the tail `[^>]+charset=` of `<meta[^>]+charset=`: at
least one non-`>` character, then the literal `charset=`
(case-insensitively). -/
def charsetScan : Str → Bool
  | [] => false
  | c :: rest =>
    if c = '>' then false
    else hdMatchCI' (str "charset=") rest || charsetScan rest

/-- `re.search(r"<meta[^>]+charset=", s, re.IGNORECASE)` as a Boolean. -/
def hasMetaCharset : Str → Bool
  | [] => false
  | c :: rest =>
    (hdMatchCI' (str "<meta") (c :: rest) && charsetScan ((c :: rest).drop 5))
      || hasMetaCharset rest

/-- Does `key` + quote + `val` + quote match at the head of `s`
(both literals case-insensitively, the two quotes independent)? -/
def quotedAttrHd (key val : Str) (s : Str) : Bool :=
  hdMatchCI' key s &&
    (match s.drop key.length with
     | q1 :: r1 =>
       (q1 = '"' || q1 = '\'') && hdMatchCI' val r1 &&
         (match r1.drop val.length with
          | q2 :: _ => q2 = '"' || q2 = '\''
          | [] => false)
     | [] => false)

/-- `re.search` of a pattern `key["\']val["\']` with `re.IGNORECASE`. -/
def hasQuotedAttr (key val : Str) : Str → Bool
  | [] => false
  | c :: rest => quotedAttrHd key val (c :: rest) || hasQuotedAttr key val rest

/-- `re.search(r'name=["\']viewport["\']', s, re.IGNORECASE)`. -/
def hasViewportName (s : Str) : Bool := hasQuotedAttr (str "name=") (str "viewport") s

/-- `re.search(r'href=["\']style\.css["\']', s, re.IGNORECASE)`. -/
def hasStyleHref (s : Str) : Bool := hasQuotedAttr (str "href=") (str "style.css") s

/-- `re.search(r'rel=["\']canonical["\']', s, re.IGNORECASE)`. -/
def hasCanonicalRel (s : Str) : Bool := hasQuotedAttr (str "rel=") (str "canonical") s

/-- Leftmost match of `openLit[^>]*>(.*?)closeLit` (both literals
case-insensitive): returns
`(pre, openM, attrs, inner, closeM, post)` with
`html = pre ++ openM ++ attrs ++ ['>'] ++ inner ++ closeM ++ post`;
`openM`/`closeM` keep the original case of the matched characters. -/
def tagMatch (openLit closeLit html : Str) :
    Option (Str × Str × Str × Str × Str × Str) :=
  match splitFirstCI html openLit with
  | none => none
  | some (pre, openM, rest) =>
    let attrs := rest.takeWhile (fun c => c != '>')
    match rest.drop attrs.length with
    | '>' :: rest2 =>
      match splitFirstCI rest2 closeLit with
      | none => none
      | some (inner, closeM, post) => some (pre, openM, attrs, inner, closeM, post)
    | _ => none

/-- Leftmost match of `openLit(.*?)closeLit` (no attribute part):
returns `(pre, openM, inner, closeM, post)`. -/
def litPairMatch (openLit closeLit html : Str) :
    Option (Str × Str × Str × Str × Str) :=
  match splitFirstCI html openLit with
  | none => none
  | some (pre, openM, rest) =>
    match splitFirstCI rest closeLit with
    | none => none
    | some (inner, closeM, post) => some (pre, openM, inner, closeM, post)

/-- `re.search(r"<head[^>]*>(.*?)</head>", html, re.IGNORECASE | re.DOTALL)`. -/
def headMatch (html : Str) := tagMatch (str "<head") (str "</head>") html

/-- `re.search(r"<body([^>]*)>(.*?)</body>", html, re.IGNORECASE | re.DOTALL)`. -/
def bodyMatch (html : Str) := tagMatch (str "<body") (str "</body>") html

/-- `re.search(r"<h1[^>]*>(.*?)</h1>", html, re.IGNORECASE | re.DOTALL)`. -/
def h1Match (html : Str) := tagMatch (str "<h1") (str "</h1>") html

/-- `re.search(r"<title>(.*?)</title>", html, re.IGNORECASE | re.DOTALL)`. -/
def titleMatch (html : Str) := litPairMatch (str "<title>") (str "</title>") html

/-- Does `<main class=["\']card["\']>` match (case-insensitively) at the
head of `s`?  A match always has length 19. -/
def mainOpenHd (s : Str) : Bool :=
  hdMatchCI' (str "<main class=") s &&
    (match s.drop 12 with
     | q1 :: r1 =>
       (q1 = '"' || q1 = '\'') && hdMatchCI' (str "card") r1 &&
         (match r1.drop 4 with
          | q2 :: '>' :: _ => q2 = '"' || q2 = '\''
          | _ => false)
     | [] => false)

/-- Leftmost occurrence of `<main class=["\']card["\']>`:
`(pre, matched, rest)`. -/
def findMainOpen : Str → Option (Str × Str × Str)
  | [] => none
  | c :: rest =>
    if mainOpenHd (c :: rest) then
      some ([], (c :: rest).take 19, (c :: rest).drop 19)
    else
      match findMainOpen rest with
      | some (p, m, r) => some (c :: p, m, r)
      | none => none

/-- `re.search(r"<main class=[\"']card[\"']>(.*?)</main>", s, re.IGNORECASE | re.DOTALL)`
returning `group(1)`. -/
def mainCardMatch (s : Str) : Option Str :=
  match findMainOpen s with
  | none => none
  | some (_, _, rest) =>
    match splitFirstCI rest (str "</main>") with
    | none => none
    | some (inner, _, _) => some inner

/-- Helper: number of characters matched by `[^>]+>` when at least one
non-`>` character has already been consumed. -/
def tagEndLenGo : Str → Option Nat
  | [] => none
  | c :: r => if c = '>' then some 1 else (tagEndLenGo r).map (· + 1)

/-- Length of a match of `[^>]+>` at the head of `s`, if any. -/
def tagEndLen : Str → Option Nat
  | [] => none
  | c :: r => if c = '>' then none else (tagEndLenGo r).map (· + 1)

/-- Helper for `stripTags`: a positive first argument means that many
characters still belong to a deleted tag and are skipped. -/
def stripTagsGo : Nat → Str → Str
  | Nat.succ n, _ :: rest => stripTagsGo n rest
  | Nat.succ _, [] => []
  | 0, [] => []
  | 0, c :: rest =>
    if c = '<' then
      match tagEndLen rest with
      | some n => stripTagsGo n rest
      | none => c :: stripTagsGo 0 rest
    else c :: stripTagsGo 0 rest

/-- `re.sub(r"<[^>]+>", "", text)`: delete every non-overlapping match of
`<[^>]+>`, scanning left to right. -/
def stripTags (s : Str) : Str := stripTagsGo 0 s

/-! ### `re.sub` string replacement templates

When the replacement argument of `re.sub` is a string, Python processes
backslash escapes in it (CPython `sre_parse.parse_template`): group
references `\1`…`\99` and `\g<n>`, octal escapes, the character escapes
`\a \b \f \n \r \t \v \\`, an error for every other ASCII-letter escape
or out-of-range group, and a literal backslash+character otherwise.
`tmplExpand` implements this; `whole` is group 0. -/

def isAsciiDigit (c : Char) : Bool := '0' ≤ c && c ≤ '9'

def isOctDigit (c : Char) : Bool := '0' ≤ c && c ≤ '7'

def isAsciiLetter (c : Char) : Bool := ('a' ≤ c && c ≤ 'z') || ('A' ≤ c && c ≤ 'Z')

def digitVal (c : Char) : Nat := c.toNat - 48

def digitsToNat (ds : Str) : Nat := ds.foldl (fun n c => 10 * n + digitVal c) 0

def octToNat (ds : Str) : Nat := ds.foldl (fun n c => 8 * n + digitVal c) 0

/-- The single-character replacement escapes of `sre_parse.ESCAPES`
(lookup by the character following the backslash). -/
def escCharTbl : Char → Option Char
  | 'a' => some '\x07'
  | 'b' => some '\x08'
  | 'f' => some '\x0c'
  | 'n' => some '\n'
  | 'r' => some '\r'
  | 't' => some '\t'
  | 'v' => some '\x0b'
  | _ => none

/-- Value of a group reference: group 0 is the whole match; a reference
past the pattern's group count is the `invalid group reference` error. -/
def groupPiece (groups : List Str) (whole : Str) (idx : Nat) : Except String Str :=
  if idx = 0 then .ok whole
  else
    match groups.get? (idx - 1) with
    | some g => .ok g
    | none => .error "invalid group reference"

/-- Process the escape that follows a backslash in a replacement
template: returns the expansion piece and the number of characters of `s`
consumed.  Follows CPython `sre_parse.parse_template`. -/
def escStep (groups : List Str) (whole : Str) (s : Str) :
    Except String (Str × Nat) :=
  match s with
  | [] => .error "bad escape (end of pattern)"
  | c :: rest =>
    if c = '\\' then .ok ([c], 1)
    else
      match escCharTbl c with
      | some e => .ok ([e], 1)
      | none =>
        if c = 'g' then
          match rest with
          | '<' :: r2 =>
            let name := r2.takeWhile (fun x => x != '>')
            match r2.drop name.length with
            | '>' :: _ =>
              if name ≠ [] && name.all isAsciiDigit then
                (groupPiece groups whole (digitsToNat name)).map
                  (fun p => (p, 1 + 1 + name.length + 1))
              else .error "unknown group name"
            | _ => .error "missing angle bracket, unterminated name"
          | _ => .error "missing angle bracket"
        else if c = '0' then
          let os := (rest.takeWhile isOctDigit).take 2
          .ok ([Char.ofNat (octToNat (c :: os) % 256)], 1 + os.length)
        else if isAsciiDigit c then
          match rest with
          | d2 :: rest2 =>
            if isAsciiDigit d2 then
              match rest2 with
              | d3 :: _ =>
                if isOctDigit c && isOctDigit d2 && isOctDigit d3 then
                  .ok ([Char.ofNat (octToNat [c, d2, d3] % 256)], 3)
                else
                  (groupPiece groups whole (digitsToNat [c, d2])).map
                    (fun p => (p, 2))
              | [] =>
                (groupPiece groups whole (digitsToNat [c, d2])).map
                  (fun p => (p, 2))
            else
              (groupPiece groups whole (digitsToNat [c])).map (fun p => (p, 1))
          | [] => (groupPiece groups whole (digitsToNat [c])).map (fun p => (p, 1))
        else if isAsciiLetter c then .error "bad escape"
        else .ok (['\\', c], 1)

/-- Helper for `tmplExpand`: a positive first argument means that many
characters belong to an escape already expanded by `escStep` and are
skipped. -/
def tmplGo (groups : List Str) (whole : Str) : Nat → Str → Except String Str
  | Nat.succ n, _ :: rest => tmplGo groups whole n rest
  | Nat.succ _, [] => .ok []
  | 0, [] => .ok []
  | 0, '\\' :: rest =>
    match escStep groups whole rest with
    | .error e => .error e
    | .ok (piece, n) =>
      match tmplGo groups whole n rest with
      | .error e => .error e
      | .ok tail => .ok (piece ++ tail)
  | 0, c :: rest =>
    match tmplGo groups whole 0 rest with
    | .error e => .error e
    | .ok tail => .ok (c :: tail)

/-- Expand a replacement template (CPython semantics, see above). -/
def tmplExpand (groups : List Str) (whole : Str) (t : Str) : Except String Str :=
  tmplGo groups whole 0 t

/-! ### `tools/unify_pages.py` -/

/-- `WRAP_MARKER_START`. -/
def WRAP_MARKER_START : Str := str "<!-- SITE_WRAPPER_START -->"

/-- `WRAP_MARKER_END`. -/
def WRAP_MARKER_END : Str := str "<!-- SITE_WRAPPER_END -->"

/-- Expansion of one character under `escape_html`'s five replacements. -/
def escPiece (c : Char) : Str :=
  if c = '&' then str "&amp;"
  else if c = '<' then str "&lt;"
  else if c = '>' then str "&gt;"
  else if c = '"' then str "&quot;"
  else if c = '\'' then str "&#39;"
  else [c]

/-- `escape_html`: the source applies the five `str.replace` calls in
sequence starting with `&`, so no replacement ever rewrites a character
introduced by another one and the sequential replaces equal this single
pass. -/
def escape_html (s : Str) : Str := (s.map escPiece).flatten

/-- `indent_lines(s, spaces)`. -/
def indent_lines (s : Str) (spaces : Nat) : Str :=
  joinWith (str "\n") ((splitlines s).map (fun line => List.replicate spaces ' ' ++ line))

/-- `ensure_viewport_and_charset`.  The `re.sub(r"<head[^>]*>", ..., count=1)`
at the end replaces the first `<head[^>]*>` match, which is exactly the
open-tag region of the successful `<head[^>]*>(.*?)</head>` search (both
start at the first case-insensitive `<head` and end at the first
following `>`). -/
def ensure_viewport_and_charset (html : Str) : Str :=
  match headMatch html with
  | none => html
  | some (pre, openM, attrs, head_inner, closeM, post) =>
    let need_charset := !hasMetaCharset head_inner
    let need_viewport := !hasViewportName head_inner
    let insert :=
      (if need_charset then str "  <meta charset=\"UTF-8\">\n" else []) ++
      (if need_viewport then
        str "  <meta name=\"viewport\" content=\"width=device-width, initial-scale=1.0\">\n"
       else [])
    if insert = [] then html
    else pre ++ openM ++ attrs ++ ['>'] ++ ['\n'] ++ insert ++ head_inner ++ closeM ++ post

/-- `ensure_stylesheet_in_head`.  The replacement template is a fixed
backslash-free string, so `re.sub`'s template expansion is the identity
and the first (case-insensitive) `</head>` is replaced by the literal
template text. -/
def ensure_stylesheet_in_head (html : Str) : Str :=
  if hasStyleHref html then html
  else
    match splitFirstCI html (str "</head>") with
    | some (pre, _, post) =>
      pre ++ str "  <link rel=\"stylesheet\" href=\"style.css\">\n</head>" ++ post
    | none => html

/-- `extract_title`. -/
def extract_title (html fallback : Str) : Str :=
  match titleMatch html with
  | some (_, _, inner, _, _) => pyStrip (collapseWs inner)
  | none =>
    match h1Match html with
    | some (_, _, _, inner, _, _) => pyStrip (collapseWs (stripTags inner))
    | none => fallback

/-- `extract_body_inner`. -/
def extract_body_inner (html : Str) : Str :=
  match bodyMatch html with
  | some (_, _, _, inner, _, _) => pyStrip inner
  | none => pyStrip html

/-- `extract_existing_main`. -/
def extract_existing_main (body_inner : Str) : Option Str :=
  if containsStr body_inner WRAP_MARKER_START then
    match mainCardMatch body_inner with
    | some inner => some (pyStrip inner)
    | none => none
  else none

/-- `set_body_preserve_attrs`: the `re.sub` replacement is the f-string
`<body{attrs}>\n{new_body_inner}\n</body>`, whose text then undergoes
Python's template escape processing against the two pattern groups
(`attrs`, old inner); this is where `re.sub` can raise. -/
def set_body_preserve_attrs (html new_body_inner : Str) : Except String Str :=
  match bodyMatch html with
  | none => .ok html
  | some (pre, openM, attrs, inner, closeM, post) =>
    let whole := openM ++ attrs ++ ['>'] ++ inner ++ closeM
    let template := str "<body" ++ attrs ++ str ">\n" ++ new_body_inner ++ str "\n</body>"
    match tmplExpand [attrs, inner] whole template with
    | .error e => .error e
    | .ok r => .ok (pre ++ r ++ post)

/-- `ensure_canonical`: the replacement template is
`canonical + "</head>"`, which undergoes template escape processing
(the pattern `</head>` has no groups). -/
def ensure_canonical (html site_base filename : Str) : Except String Str :=
  if site_base = [] then .ok html
  else if hasCanonicalRel html then .ok html
  else
    match splitFirstCI html (str "</head>") with
    | none => .ok html
    | some (pre, closeM, post) =>
      let canonical :=
        str "  <link rel=\"canonical\" href=\"" ++ site_base ++ ['/'] ++ filename ++ str "\">\n"
      match tmplExpand [] closeM (canonical ++ str "</head>") with
      | .error e => .error e
      | .ok r => .ok (pre ++ r ++ post)

/-- One record of `articles.json` after `load_articles`' filter (so `url`
and `title` are nonempty strings); `category = []` models an
absent/null/empty field, `featured` is whether the field is literally
`true`, `rank = some r` iff the field is an `int`. -/
structure Article where
  url : Str
  title : Str
  category : Str
  featured : Bool
  rank : Option Int
deriving DecidableEq

/-- `_rank`: `r if isinstance(r, int) else 9999`. -/
def rankArticle (a : Article) : Int := a.rank.getD 9999

/-- Python `x or "other"` on a category string. -/
def catOr (c : Str) : Str := if c = [] then str "other" else c

/-- The sort key comparison `(_rank(x), str(x.get("title") or ""))` of
`related_for` (a total preorder, compared lexicographically). -/
def relKeyLe (x y : Article) : Bool :=
  if rankArticle x = rankArticle y then strLe x.title y.title
  else decide (rankArticle x < rankArticle y)

/-- The `push_list` closure of `related_for`: append unseen nonempty urls
and stop right after the length reaches `k`. -/
def pushList (k : Nat) (merged : List Article) (seen : List Str) :
    List Article → List Article × List Str
  | [] => (merged, seen)
  | a :: rest =>
    if a.url = [] ∨ a.url ∈ seen then pushList k merged seen rest
    else
      let merged' := merged ++ [a]
      let seen' := seen ++ [a.url]
      if k ≤ merged'.length then (merged', seen') else pushList k merged' seen' rest

/-- The page's category as computed at the top of `related_for`. -/
def pageCategory (filename : Str) (articles : List Article) : Str :=
  match articles.find? (fun a => a.url = filename) with
  | some a => catOr a.category
  | none => str "other"

/-- `related_for(filename, articles, k)`. -/
def related_for (filename : Str) (articles : List Article) (k : Nat) : List Article :=
  let category := pageCategory filename articles
  let same_cat :=
    pySortBy relKeyLe
      (articles.filter (fun a => a.url ≠ filename ∧ catOr a.category = category))
  let featuredL :=
    pySortBy relKeyLe (articles.filter (fun a => a.url ≠ filename ∧ a.featured = true))
  let p1 := pushList k [] [] same_cat
  let p2 := pushList k p1.1 p1.2 featuredL
  let merged :=
    if p2.1.length < k then
      (pushList k p2.1 p2.2
        (pySortBy relKeyLe (articles.filter (fun a => a.url ≠ filename)))).1
    else p2.1
  merged.take k

/-- The `related_links` string of `build_wrapper` (placeholder when the
joined string is empty, i.e. when `rel` is empty). -/
def related_links_html (rel : List Article) : Str :=
  let links :=
    joinWith (str "\n")
      (rel.map (fun a =>
        str "      <li><a href=\"" ++ escape_html a.url ++ str "\">" ++
          escape_html a.title ++ str "</a></li>"))
  if links = [] then
    str "      <li><span style=\"color:#a9b7d6;\">No related posts yet.</span></li>"
  else links

/-- `build_wrapper(page_title, original_inner, rel)`; `today` is the
module constant `TODAY`. -/
def build_wrapper (today page_title original_inner : Str) (rel : List Article) : Str :=
  WRAP_MARKER_START ++
  str "\n<div class=\"site\">\n\n  <header class=\"header\">\n    <div class=\"brand\">\n      <div class=\"brand-title\">CS Homework &amp; Exam Solutions</div>\n      <div class=\"brand-sub\">" ++
  escape_html page_title ++
  str "</div>\n    </div>\n\n    <nav class=\"nav\">\n      <a href=\"index.html#top\">Home</a>\n      <a href=\"index.html#top-examples\">Top Examples</a>\n      <a href=\"articles.html\">All Articles</a>\n      <a href=\"index.html#faq\">FAQ</a>\n    </nav>\n  </header>\n\n  <main class=\"card\">\n" ++
  indent_lines original_inner 4 ++
  str "\n  </main>\n\n  <section class=\"card\">\n    <h2>Related Examples</h2>\n    <p>Auto-generated links to help you continue practicing.</p>\n    <ul class=\"links\">\n" ++
  related_links_html rel ++
  str "\n    </ul>\n  </section>\n\n  <div class=\"footer\">\n    <span class=\"badge\">Updated • " ++
  today ++
  str "</span>\n  </div>\n\n</div>\n" ++
  WRAP_MARKER_END

/-- Uppercase one ASCII character (`str.upper` on the range used here). -/
def upperChar (c : Char) : Char :=
  if 'a' ≤ c && c ≤ 'z' then Char.ofNat (c.toNat - 32) else c

/-- Helper for `pyTitle`: `prevAlpha` is whether the previous character
was cased. -/
def titleGo (prevAlpha : Bool) : Str → Str
  | [] => []
  | c :: rest =>
    if isAsciiLetter c then
      (if prevAlpha then lowerChar c else upperChar c) :: titleGo true rest
    else c :: titleGo false rest

/-- Python `str.title()` (ASCII range): uppercase a cased character that
follows a non-cased one, lowercase the other cased characters. -/
def pyTitle (s : Str) : Str := titleGo false s

/-- The fallback title `path.stem.replace("-", " ").title()`. -/
def stemFallback (stem : Str) : Str :=
  pyTitle (stem.map (fun c => if c = '-' then ' ' else c))

/-- The per-page body of the loop of `unify_all_pages` (lines 307-329):
the pure transformation applied to one page's text.  `today` is `TODAY`,
`site_base` the (already `rstrip("/")`-ed) `SITE_BASE`, `articles` the
loaded corpus, `fname`/`stem` are `path.name`/`path.stem`. -/
def unifyPage (today site_base : Str) (articles : List Article)
    (fname stem html0 : Str) : Except String Str :=
  let html1 := ensure_viewport_and_charset html0
  let html2 := ensure_stylesheet_in_head html1
  let title := extract_title html2 (stemFallback stem)
  let body_inner := extract_body_inner html2
  let original_inner :=
    match extract_existing_main body_inner with
    | some recovered => recovered
    | none => body_inner
  let rel := related_for fname articles 6
  let wrapper := build_wrapper today title original_inner rel
  match set_body_preserve_attrs html2 wrapper with
  | .error e => .error e
  | .ok html3 => ensure_canonical html3 site_base fname

deriving instance DecidableEq for Except

/-! ### `tools/topic_expand.py` -/

/-- `MAX_BANK_SIZE`. -/
def MAX_BANK_SIZE : Nat := 260

/-- `NEW_ITEMS_PER_RUN_LIMIT`. -/
def NEW_ITEMS_PER_RUN_LIMIT : Nat := 50

/-- `BANNED_SUBSTRINGS`. -/
def BANNED_SUBSTRINGS : List Str :=
  [str "pdf", str "ppt", str "slides", str "download", str "solution manual",
   str "github", str "youtube", str "quizlet", str "chegg", str "coursehero"]

/-- `Seed`. -/
structure Seed where
  category : Str
  query : Str
deriving DecidableEq

/-- `SEEDS`. -/
def SEEDS : List Seed :=
  [⟨str "scheduling", str "round robin scheduling example"⟩,
   ⟨str "scheduling", str "preemptive priority scheduling example"⟩,
   ⟨str "scheduling", str "sjf srtf scheduling example"⟩,
   ⟨str "scheduling", str "mlfq scheduling example"⟩,
   ⟨str "scheduling", str "cpu scheduling gantt chart example"⟩,
   ⟨str "page-replacement", str "fifo page replacement example"⟩,
   ⟨str "page-replacement", str "lru page replacement example"⟩,
   ⟨str "page-replacement", str "optimal page replacement example"⟩,
   ⟨str "page-replacement", str "second chance clock page replacement example"⟩,
   ⟨str "page-replacement", str "belady anomaly example"⟩,
   ⟨str "deadlock", str "banker's algorithm example"⟩,
   ⟨str "deadlock", str "banker's request algorithm example"⟩,
   ⟨str "deadlock", str "deadlock detection algorithm example"⟩,
   ⟨str "deadlock", str "resource allocation graph deadlock example"⟩,
   ⟨str "parsing", str "shift reduce parsing example"⟩,
   ⟨str "parsing", str "first follow example"⟩,
   ⟨str "parsing", str "ll1 parsing table example"⟩,
   ⟨str "parsing", str "left recursion elimination example"⟩]

/-- `normalize_text`: NFKC (identity on the code points this pipeline
keeps, see the header), then `strip().lower()`, then whitespace
collapse. -/
def normalize_text (s : Str) : Str :=
  collapseWs (lowerStr (pyStrip s))

/-- `is_bad_topic`. -/
def is_bad_topic (s : Str) : Bool :=
  let t := normalize_text s
  if t.length < 8 then true
  else if BANNED_SUBSTRINGS.any (fun b => containsStr t b) then true
  else if !containsStr t (str "example") && !containsStr t (str "algorithm")
      && !containsStr t (str "parsing") then true
  else false

/-- Keep only lowercase ASCII alphanumerics and whitespace:
`re.sub(r"[^a-z0-9\s]+", " ", t)` replaces each maximal run of other
characters by one space (same run structure as `collapseGo`). -/
def isSlugKeep (c : Char) : Bool :=
  ('a' ≤ c && c ≤ 'z') || ('0' ≤ c && c ≤ '9') || isPySpace c

/-- Helper for the `[^a-z0-9\s]+ → " "` substitution. -/
def badRunGo (prevBad : Bool) : Str → Str
  | [] => []
  | c :: rest =>
    if isSlugKeep c then c :: badRunGo false rest
    else if prevBad then badRunGo true rest
    else ' ' :: badRunGo true rest

/-- `re.sub(r"[^a-z0-9\s]+", " ", t)`. -/
def subBadRuns (s : Str) : Str := badRunGo false s

/-- `slugify_filename`. -/
def slugify_filename (topic : Str) : Str :=
  let t := normalize_text topic
  let t := replaceAll t (str "banker's") (str "bankers")
  let t := replaceAll t (str "banker’s") (str "bankers")
  let t := replaceAll t (str "(srtf)") (str "srtf")
  let t := replaceAll t (str "(opt)") (str "opt")
  let t2 := subBadRuns t
  let t2 := pyStrip (collapseWs t2)
  let words := (splitOnChar ' ' t2).take 10
  let base0 := stripHyphens (joinWith (str "-") words)
  let base1 := if base0 = [] then str "worked-example" else base0
  let base := if !containsStr base1 (str "example") then base1 ++ str "-example" else base1
  base ++ str ".html"

/-- `infer_category`. -/
def infer_category (seed_category suggestion : Str) : Str :=
  let t := normalize_text suggestion
  if [str "fifo", str "lru", str "optimal", str "second chance", str "clock",
      str "belady", str "page replacement"].any (fun k => containsStr t k) then
    str "page-replacement"
  else if [str "round robin", str "sjf", str "srtf", str "priority scheduling",
      str "mlfq", str "cpu scheduling"].any (fun k => containsStr t k) then
    str "scheduling"
  else if [str "banker", str "deadlock", str "resource allocation", str "rag",
      str "safety"].any (fun k => containsStr t k) then
    str "deadlock"
  else if [str "parsing", str "first", str "follow", str "ll1",
      str "left recursion", str "shift reduce", str "lr parsing"].any
      (fun k => containsStr t k) then
    str "parsing"
  else seed_category

/-- `build_prompt(category, suggestion)`. -/
def build_prompt (category suggestion : Str) : Str :=
  let title := pyStrip suggestion
  let base_rules :=
    str "Write a complete HTML page (no external CSS/JS). Output ONLY the final HTML document.\n\nHard requirements:\n- Include <meta charset>, viewport, <title>, meta description, meta keywords.\n- Use exam-style step-by-step solution.\n- Use simple HTML structure: <h1>, <h2>, <p>, <pre>, <table border=\"1\">.\n- Must include worked tables/calculations and final answer.\n"
  let specific :=
    if category = str "scheduling" then
      str "Topic: CPU Scheduling worked example.\n- Include process table (Arrival Time, Burst Time, and if needed Priority).\n- Show Gantt chart (text is fine).\n- Compute Completion Time, Turnaround Time, Waiting Time, and averages.\n"
    else if category = str "page-replacement" then
      str "Topic: Page Replacement worked example.\n- Provide reference string and number of frames.\n- Show step-by-step frame table and page fault count.\n- Conclude total page faults.\n"
    else if category = str "deadlock" then
      str "Topic: Deadlock / Banker / Detection worked example.\n- Provide Allocation/Max/Available (or graph) and do step-by-step reasoning.\n- Show safe sequence or prove deadlock.\n"
    else if category = str "parsing" then
      str "Topic: Compiler parsing worked example.\n- Provide a grammar.\n- Compute needed sets/tables (FIRST/FOLLOW, LL(1) table, or parsing steps).\n- Show step-by-step parsing actions.\n"
    else
      str "Topic: Computer Science worked example.\n- Provide a clear worked solution with steps and final answer.\n"
  base_rules ++ str "\nTitle: " ++ title ++ str "\n\n" ++ specific ++ str "\n"

/-- One topic-bank record after `load_existing_bank`'s filter (so
`filename`, `prompt` and `category` are nonempty).  `rank = some r` iff
the JSON field is an `int`. -/
structure Item where
  filename : Str
  category : Str
  featured : Bool
  rank : Option Int
  tags : Str
  title_hint : Str
  prompt : Str
  source : Str
  seed : Str
deriving DecidableEq

/-- `bank_keys(bank)`: the dedup keys (lowered filenames, normalized
nonempty title hints).  The Python sets are modelled as lists queried
with membership. -/
def bank_keys (bank : List Item) : List Str × List Str :=
  (bank.map (fun x => lowerStr x.filename),
   (bank.filter (fun x => x.title_hint ≠ [])).map (fun x => normalize_text x.title_hint))

/-- The mutable state of `expand_bank`'s suggestion loop:
`existing_filenames`, `existing_titles`, `new_items`. -/
structure ExpSt where
  fns : List Str
  titles : List Str
  items : List Item
deriving DecidableEq

/-- The item literal built for an accepted suggestion. -/
def mkNewItem (seed : Seed) (cat fn sug : Str) : Item :=
  { filename := fn
    category := cat
    featured := false
    rank := some 90
    tags := normalize_text sug
    title_hint := pyStrip sug
    prompt := build_prompt cat sug
    source := str "google_suggest"
    seed := seed.query }

/-- One iteration of `expand_bank`'s inner `for sug in suggestions` loop.
The `break` at the per-run cap is modelled by the leading guard: the item
count never decreases, so once it reaches the cap every later iteration
is a no-op, exactly like breaking out of both loops. -/
def expandStep (seed : Seed) (st : ExpSt) (sug : Str) : ExpSt :=
  if NEW_ITEMS_PER_RUN_LIMIT ≤ st.items.length then st
  else if is_bad_topic sug then st
  else
    let cat := infer_category seed.category sug
    let filename := slugify_filename sug
    let title_norm := normalize_text sug
    if lowerStr filename ∈ st.fns then st
    else if title_norm ∈ st.titles then st
    else
      { fns := st.fns ++ [lowerStr filename]
        titles := st.titles ++ [title_norm]
        items := st.items ++ [mkNewItem seed cat filename sug] }

/-- Run the loop over one seed's (at most ten) suggestions. -/
def expandSeed (fetched : Str → List Str) (st : ExpSt) (seed : Seed) : ExpSt :=
  ((fetched seed.query).take 10).foldl (expandStep seed) st

/-- The `new_items` list produced by one `expand_bank` call, given the
per-query suggestion lists `fetched` (a seed whose fetch failed
contributes `[]`). -/
def expandNewItems (bank : List Item) (fetched : Str → List Str) : List Item :=
  let keys := bank_keys bank
  (SEEDS.foldl (expandSeed fetched) ⟨keys.1, keys.2, []⟩).items

/-- The final `# Dedupe by filename again (safety)` loop of
`expand_bank`: keep the first item per nonempty lowered filename. -/
def dedupeByFilename (seen : List Str) : List Item → List Item
  | [] => []
  | x :: rest =>
    let f := lowerStr x.filename
    if f = [] ∨ f ∈ seen then dedupeByFilename seen rest
    else x :: dedupeByFilename (seen ++ [f]) rest

/-- `expand_bank`: the bank written back, as a function of the loaded
bank and the suggestion source output. -/
def expand_bank (bank : List Item) (fetched : Str → List Str) : List Item :=
  let merged := bank ++ expandNewItems bank fetched
  let deduped := dedupeByFilename [] merged
  if MAX_BANK_SIZE < deduped.length then deduped.take MAX_BANK_SIZE else deduped

/-! ### `tools/agent_generate.py` -/

/-- `CATEGORY_ORDER`. -/
def CATEGORY_ORDER : List Str :=
  [str "scheduling", str "page-replacement", str "deadlock", str "parsing", str "other"]

/-- `CATEGORY_ORDER.index(c)` (total: returns the length when absent,
which never happens at the call sites). -/
def idxOfCat (c : Str) : List Str → Nat
  | [] => 0
  | y :: ys => if y = c then 0 else idxOfCat c ys + 1

/-- `bank_by_file.get(f, {})`: a Python dict comprehension keeps the last
entry per key, so lookup finds the last bank item with that filename. -/
def bankByFile (bank : List Item) (f : Str) : Option Item :=
  bank.reverse.find? (fun t => t.filename = f)

/-- The category a produced filename is counted under in
`category_balance_order` (`str(meta.get("category") or "other")` with
`meta = {}` for unmatched files). -/
def fileCat (bank : List Item) (f : Str) : Str :=
  match bankByFile bank f with
  | some t => catOr t.category
  | none => str "other"

/-- The `counts` dict of `category_balance_order`, as a function; built
by the same per-file increments (all five `CATEGORY_ORDER` keys are
initialised to 0, extra keys are never read back). -/
def balanceCounts (existing : List Str) (bank : List Item) : Str → Nat :=
  existing.foldl (fun m f => fun c => if c = fileCat bank f then m c + 1 else m c)
    (fun _ => 0)

/-- The sort key comparison `(counts.get(c, 0), CATEGORY_ORDER.index(c))`. -/
def balanceLe (counts : Str → Nat) (c1 c2 : Str) : Bool :=
  if counts c1 = counts c2 then
    decide (idxOfCat c1 CATEGORY_ORDER ≤ idxOfCat c2 CATEGORY_ORDER)
  else decide (counts c1 < counts c2)

/-- `category_balance_order(existing_files, bank)`. -/
def category_balance_order (existing : List Str) (bank : List Item) : List Str :=
  pySortBy (balanceLe (balanceCounts existing bank)) CATEGORY_ORDER

/-- `rank_of` in `pick_next_topic`: `r if isinstance(r, int) else 999`. -/
def rank_of (t : Item) : Int := t.rank.getD 999

/-- The candidate sort key comparison `(rank_of(t), str(t.get("filename")))`. -/
def candLe (t1 t2 : Item) : Bool :=
  if rank_of t1 = rank_of t2 then strLe t1.filename t2.filename
  else decide (rank_of t1 < rank_of t2)

/-- `pick_next_topic(existing_files, bank)`; `existing` models the set of
already-produced filenames. -/
def pick_next_topic (existing : List Str) (bank : List Item) : Option Item :=
  let cats := category_balance_order existing bank
  match
    cats.findSome? (fun cat =>
      (pySortBy candLe
        (bank.filter (fun t => t.category = cat ∧ t.filename ∉ existing))).head?)
  with
  | some t => some t
  | none =>
    (pySortBy candLe (bank.filter (fun t => t.filename ∉ existing))).head?

/-- `generate_one_new_page(topic)` as a function of the text the
generation service returned (`resp.output_text or ""`): the result is
`.ok (filename, text written to disk)` or the raised `RuntimeError`; in
the error case nothing is written. -/
def generate_one_new_page (topic : Item) (outputText : Str) : Except String (Str × Str) :=
  let fname := topic.filename
  let html := pyStrip outputText
  if !containsStr (lowerStr html) (str "<html")
      || !containsStr (lowerStr html) (str "</html>") then
    .error "Model output doesn't look like HTML."
  else
    .ok (fname, html)

/-! ### Specification-side definitions

These follow the wording of the specification (not the source) and are
compared with the source-side functions in the refinement claims. -/

/-- First strict minimum of a list under `lt` together with the other
elements in their original order. -/
def pickMinBy (lt : α → α → Bool) : List α → Option (α × List α)
  | [] => none
  | x :: xs =>
    match pickMinBy lt xs with
    | none => some (x, [])
    | some (m, rest) => if lt m x then some (m, x :: rest) else some (x, xs)

theorem pickMinBy_length {lt : α → α → Bool} {l : List α} {m : α} {rest : List α}
    (h : pickMinBy lt l = some (m, rest)) : rest.length + 1 = l.length := by
  induction l generalizing m rest with
  | nil => simp [pickMinBy] at h
  | cons x xs ih =>
    simp only [pickMinBy] at h
    split at h
    · cases h
      rename_i hnone
      cases xs with
      | nil => simp
      | cons y ys =>
        simp only [pickMinBy] at hnone
        split at hnone
        · simp at hnone
        · split at hnone <;> simp at hnone
    · rename_i m' rest' hsome
      split at h <;> cases h
      · have := ih hsome
        simp
        omega
      · simp

/-- Selection sort, with fuel: repeatedly extract the first minimum.
`pickMinBy` returns one element fewer each round, so fuel `l.length`
(as `selSortBy` passes) always suffices. -/
def selSortGo (lt : α → α → Bool) : Nat → List α → List α
  | 0, _ => []
  | Nat.succ n, l =>
    match pickMinBy lt l with
    | none => []
    | some (m, rest) => m :: selSortGo lt n rest

/-- Selection sort: repeatedly extract the first minimum. -/
def selSortBy (lt : α → α → Bool) (l : List α) : List α :=
  selSortGo lt l.length l

/-- First element of the list minimal under the total comparison `le`
(earlier elements win ties). -/
def minFirstBy (le : α → α → Bool) : List α → Option α
  | [] => none
  | x :: xs =>
    match minFirstBy le xs with
    | none => some x
    | some m => some (if le x m then x else m)

/-- Modelled from the spec (§3): an entry's rank with the "default large
value if absent/invalid". -/
def specRank (t : Item) : Int := t.rank.getD 999

/-- Modelled from the spec (§4.2): "pick the candidate with lowest rank,
ties broken by filename lexical order". -/
def specCandLe (t1 t2 : Item) : Bool :=
  decide (specRank t1 < specRank t2) ||
    (decide (specRank t1 = specRank t2) && strLe t1.filename t2.filename)

/-- Modelled from the spec (§4.2): "how many already-produced filenames
map to that category (via Store lookup, defaulting unmatched to
`other`)". -/
def specCatCount (existing : List Str) (bank : List Item) (c : Str) : Nat :=
  (existing.filter (fun f => fileCat bank f = c)).length

/-- Modelled from the spec (§4.2): strict order on categories by
"(produced-count ascending, declared-order ascending)". -/
def specCatLt (existing : List Str) (bank : List Item) (c1 c2 : Str) : Bool :=
  decide (specCatCount existing bank c1 < specCatCount existing bank c2) ||
    (decide (specCatCount existing bank c1 = specCatCount existing bank c2) &&
      decide (idxOfCat c1 CATEGORY_ORDER < idxOfCat c2 CATEGORY_ORDER))

/-- Modelled from the spec (§4.2): "scan categories in that order and,
for the first category with at least one unproduced candidate, pick
the candidate with lowest rank, ties broken by filename lexical
order". -/
def specScanCats (existing : List Str) (bank : List Item) : List Str → Option Item
  | [] => none
  | c :: cs =>
    match
      minFirstBy specCandLe
        (bank.filter (fun t => t.category = c ∧ t.filename ∉ existing))
    with
    | some t => some t
    | none => specScanCats existing bank cs

/-- Modelled from the spec (§4.2): the category-balanced round-robin
selector — order categories by (produced count, declared order), scan
them for the first unproduced candidate of lowest (rank, filename),
otherwise fall back to the lowest (rank, filename) unproduced entry
overall, otherwise signal exhaustion. -/
def pickNextTopicSpec (existing : List Str) (bank : List Item) : Option Item :=
  match
    specScanCats existing bank (selSortBy (specCatLt existing bank) CATEGORY_ORDER)
  with
  | some t => some t
  | none => minFirstBy specCandLe (bank.filter (fun t => t.filename ∉ existing))

/-- Modelled from the spec (§4.1): the truncation order "stable sort by
rank, then category, then filename". -/
def specRCFLe (x y : Item) : Bool :=
  decide (specRank x < specRank y) ||
    (decide (specRank x = specRank y) &&
      (strLt x.category y.category ||
        (x.category = y.category && strLe x.filename y.filename)))

/-- Modelled from the spec (§4.1): "the Store is truncated
deterministically (stable sort by rank, then category, then filename) if
it would exceed the size cap, always keeping the lowest-rank/earliest
entries" — what the spec says `expand_bank` persists. -/
def truncSortedSpec (bank : List Item) (fetched : Str → List Str) : List Item :=
  let deduped := dedupeByFilename [] (bank ++ expandNewItems bank fetched)
  if MAX_BANK_SIZE < deduped.length then
    (pySortBy specRCFLe deduped).take MAX_BANK_SIZE
  else deduped

/-! ### Order and sorting lemmas -/

theorem insSorted_perm (le : α → α → Bool) (x : α) (l : List α) :
    (insSorted le x l).Perm (x :: l) := by
  induction l with
  | nil => simp [insSorted]
  | cons y ys ih =>
    simp only [insSorted]
    split
    · exact List.Perm.refl _
    · exact (ih.cons y).trans (List.Perm.swap x y ys)

theorem pySortBy_perm (le : α → α → Bool) (l : List α) :
    (pySortBy le l).Perm l := by
  induction l with
  | nil => simp [pySortBy]
  | cons x xs ih =>
    exact (insSorted_perm le x (pySortBy le xs)).trans (ih.cons x)

theorem pySortBy_cons (le : α → α → Bool) (x : α) (xs : List α) :
    pySortBy le (x :: xs) = insSorted le x (pySortBy le xs) := rfl

theorem head?_pySortBy (le : α → α → Bool) (l : List α) :
    (pySortBy le l).head? = minFirstBy le l := by
  induction l with
  | nil => rfl
  | cons x xs ih =>
    rw [pySortBy_cons]
    simp only [minFirstBy]
    cases hp : pySortBy le xs with
    | nil =>
      rw [hp] at ih
      simp at ih
      rw [← ih]
      simp [insSorted]
    | cons y t =>
      rw [hp] at ih
      simp at ih
      rw [← ih]
      simp only [insSorted]
      split <;> simp_all

theorem pickMinBy_eq_none {lt : α → α → Bool} {l : List α}
    (h : pickMinBy lt l = none) : l = [] := by
  cases l with
  | nil => rfl
  | cons x xs =>
    simp only [pickMinBy] at h
    split at h
    · simp at h
    · split at h <;> simp at h

theorem pySortBy_pickMin {le lt : α → α → Bool} (hcomp : ∀ a b, le a b = !lt b a)
    {l : List α} {m : α} {rest : List α} (h : pickMinBy lt l = some (m, rest)) :
    pySortBy le l = m :: pySortBy le rest := by
  induction l generalizing m rest with
  | nil => simp [pickMinBy] at h
  | cons x xs ih =>
    cases hxs : pickMinBy lt xs with
    | none =>
      have hx : pickMinBy lt (x :: xs) = some (x, []) := by
        simp [pickMinBy, hxs]
      rw [hx] at h
      cases h
      rw [pickMinBy_eq_none hxs]
      rfl
    | some pr =>
      obtain ⟨m', rest'⟩ := pr
      by_cases hlt : lt m' x = true
      · have hx : pickMinBy lt (x :: xs) = some (m', x :: rest') := by
          simp [pickMinBy, hxs, hlt]
        rw [hx] at h
        cases h
        rw [pySortBy_cons, ih hxs, pySortBy_cons]
        have hle : le x m = false := by rw [hcomp, hlt]; rfl
        simp [insSorted, hle]
      · have hx : pickMinBy lt (x :: xs) = some (x, xs) := by
          simp [pickMinBy, hxs, hlt]
        rw [hx] at h
        cases h
        rw [pySortBy_cons, ih hxs]
        have hle : le x m' = true := by
          rw [hcomp]
          simp [Bool.not_eq_true] at hlt
          rw [hlt]
          rfl
        simp [insSorted, hle, ← ih hxs]

theorem pySortBy_eq_selSortGo {le lt : α → α → Bool}
    (hcomp : ∀ a b, le a b = !lt b a) :
    ∀ (n : Nat) (l : List α), l.length ≤ n → pySortBy le l = selSortGo lt n l := by
  intro n
  induction n with
  | zero =>
    intro l hl
    have : l = [] := by
      cases l
      · rfl
      · simp at hl
    subst this
    rfl
  | succ n ih =>
    intro l hl
    cases hp : pickMinBy lt l with
    | none =>
      rw [pickMinBy_eq_none hp]
      rfl
    | some pr =>
      obtain ⟨m, rest⟩ := pr
      have hlen := pickMinBy_length hp
      rw [pySortBy_pickMin hcomp hp]
      simp only [selSortGo, hp]
      rw [ih rest (by omega)]

theorem pySortBy_eq_selSortBy {le lt : α → α → Bool}
    (hcomp : ∀ a b, le a b = !lt b a) (l : List α) :
    pySortBy le l = selSortBy lt l :=
  pySortBy_eq_selSortGo hcomp l.length l (Nat.le_refl _)

/-! ### Selector refinement (C2) -/

theorem foldl_count (bank : List Item) (c : Str) :
    ∀ (existing : List Str) (m : Str → Nat),
      (existing.foldl
        (fun m f => fun c' => if c' = fileCat bank f then m c' + 1 else m c') m) c
        = m c + (existing.filter (fun f => fileCat bank f = c)).length := by
  intro existing
  induction existing with
  | nil =>
    intro m
    simp
  | cons f fs ih =>
    intro m
    simp only [List.foldl_cons, List.filter_cons]
    by_cases hc : fileCat bank f = c
    · rw [ih]
      simp [hc]
      omega
    · rw [ih]
      have hc' : ¬ (c = fileCat bank f) := fun h => hc h.symm
      simp [hc, hc']

theorem balanceCounts_eq (existing : List Str) (bank : List Item) (c : Str) :
    balanceCounts existing bank c = specCatCount existing bank c := by
  unfold balanceCounts specCatCount
  rw [foldl_count]
  simp

theorem candLe_eq_spec : candLe = specCandLe := by
  funext t1 t2
  unfold candLe specCandLe rank_of specRank
  by_cases h : t1.rank.getD 999 = t2.rank.getD 999
  · simp [h]
  · simp [h]

theorem balanceLe_compat (e : List Str) (bk : List Item) (a b : Str) :
    balanceLe (balanceCounts e bk) a b = !(specCatLt e bk b a) := by
  unfold balanceLe specCatLt
  rw [balanceCounts_eq, balanceCounts_eq]
  by_cases h : specCatCount e bk a = specCatCount e bk b
  · rw [if_pos h, h]
    by_cases h2 : idxOfCat a CATEGORY_ORDER ≤ idxOfCat b CATEGORY_ORDER
    · simp [h2, Nat.not_lt.mpr h2]
    · have h3 := Nat.not_le.mp h2
      simp [h2, h3]
  · rw [if_neg h]
    rcases Nat.lt_or_gt_of_ne h with hl | hg
    · simp [hl, Nat.lt_asymm hl, Ne.symm h]
    · simp [hg, Nat.lt_asymm hg]

theorem pick_next_topic_def (existing : List Str) (bank : List Item) :
    pick_next_topic existing bank =
      match (category_balance_order existing bank).findSome? (fun cat =>
          (pySortBy candLe
            (bank.filter (fun t => t.category = cat ∧ t.filename ∉ existing))).head?) with
      | some t => some t
      | none =>
        (pySortBy candLe (bank.filter (fun t => t.filename ∉ existing))).head? := rfl

theorem specScanCats_eq (existing : List Str) (bank : List Item) (cats : List Str) :
    cats.findSome? (fun cat =>
      (pySortBy specCandLe
        (bank.filter (fun t => t.category = cat ∧ t.filename ∉ existing))).head?)
      = specScanCats existing bank cats := by
  induction cats with
  | nil => rfl
  | cons c cs ih =>
    simp only [List.findSome?_cons]
    rw [head?_pySortBy]
    simp only [specScanCats]
    cases minFirstBy specCandLe
        (bank.filter (fun t => t.category = c ∧ t.filename ∉ existing)) with
    | none => exact ih
    | some t => rfl

theorem pick_next_topic_eq_spec (existing : List Str) (bank : List Item) :
    pick_next_topic existing bank = pickNextTopicSpec existing bank := by
  rw [pick_next_topic_def]
  have horder : category_balance_order existing bank
      = selSortBy (specCatLt existing bank) CATEGORY_ORDER := by
    unfold category_balance_order
    exact pySortBy_eq_selSortBy (balanceLe_compat existing bank) _
  rw [horder, candLe_eq_spec, specScanCats_eq]
  unfold pickNextTopicSpec
  cases specScanCats existing bank
      (selSortBy (specCatLt existing bank) CATEGORY_ORDER) with
  | some t => rfl
  | none =>
    simp only
    rw [head?_pySortBy]

theorem specScanCats_of_all_produced (existing : List Str) (bank : List Item)
    (h : ∀ t ∈ bank, t.filename ∈ existing) (cats : List Str) :
    specScanCats existing bank cats = none := by
  induction cats with
  | nil => rfl
  | cons c cs ih =>
    simp only [specScanCats]
    have hnil : bank.filter (fun t => t.category = c ∧ t.filename ∉ existing) = [] := by
      rw [List.filter_eq_nil]
      intro t ht
      simp only [decide_eq_true_eq, not_and]
      intro _
      simp [h t ht]
    rw [hnil]
    simpa [minFirstBy] using ih

/-- The two bank entries of the spec's §8 selection scenario (the fields
the scenario leaves open are filled with well-formed defaults). -/
def scenA : Item :=
  ⟨str "a.html", str "scheduling", false, some 1, [], [], str "p", [], []⟩

/-- Second scenario entry. -/
def scenB : Item :=
  ⟨str "b.html", str "parsing", false, some 1, [], [], str "p", [], []⟩

/-- C2: the selector implements category-balanced round robin exactly as
the spec words it — it coincides with the spec-side selector
`pickNextTopicSpec` on every input (category order by produced count then
declared order, first category with an unproduced candidate, lowest
(rank, filename) candidate, overall-lowest fallback), it signals
exhaustion (`none`) whenever every bank filename is produced, and on the
spec's concrete scenario it picks `a.html` first and then `b.html`. -/
theorem pick_next_topic_matches_spec :
    (∀ (existing : List Str) (bank : List Item),
      pick_next_topic existing bank = pickNextTopicSpec existing bank)
    ∧ (∀ (existing : List Str) (bank : List Item),
        (∀ t ∈ bank, t.filename ∈ existing) → pick_next_topic existing bank = none)
    ∧ pick_next_topic [] [scenA, scenB] = some scenA
    ∧ pick_next_topic [str "a.html"] [scenA, scenB] = some scenB := by
  refine ⟨pick_next_topic_eq_spec, ?_, by decide, by decide⟩
  intro existing bank h
  rw [pick_next_topic_eq_spec]
  unfold pickNextTopicSpec
  rw [specScanCats_of_all_produced existing bank h]
  have hnil : bank.filter (fun t => t.filename ∉ existing) = [] := by
    rw [List.filter_eq_nil]
    intro t ht
    simp [h t ht]
  rw [hnil]
  rfl

/-- Witness for `pick_next_topic_matches_spec`: its exhaustion clause at
a concrete produced-set covering the whole bank. -/
theorem pick_next_topic_matches_spec_witness :
    pick_next_topic [str "a.html", str "b.html"] [scenA, scenB] = none :=
  pick_next_topic_matches_spec.2.1 [str "a.html", str "b.html"] [scenA, scenB]
    (by decide)

/-! ### Expansion loop invariants (C6, C10, C5) -/

theorem foldl_preserve {σ β : Type _} (P : σ → Prop) (f : σ → β → σ)
    (hf : ∀ s b, P s → P (f s b)) :
    ∀ (l : List β) (s : σ), P s → P (l.foldl f s) := by
  intro l
  induction l with
  | nil => intro s hs; exact hs
  | cons b bs ih => intro s hs; exact ih (f s b) (hf s b hs)

theorem expandStep_cap (seed : Seed) (st : ExpSt) (sug : Str)
    (h : st.items.length ≤ NEW_ITEMS_PER_RUN_LIMIT) :
    (expandStep seed st sug).items.length ≤ NEW_ITEMS_PER_RUN_LIMIT := by
  simp only [expandStep]
  split
  · exact h
  · rename_i hlt
    have hlt' : st.items.length < NEW_ITEMS_PER_RUN_LIMIT := Nat.lt_of_not_le hlt
    split
    · exact h
    · split
      · exact h
      · split
        · exact h
        · simp
          omega

theorem expandNewItems_cap (bank : List Item) (fetched : Str → List Str) :
    (expandNewItems bank fetched).length ≤ NEW_ITEMS_PER_RUN_LIMIT := by
  unfold expandNewItems
  have := foldl_preserve (fun st => st.items.length ≤ NEW_ITEMS_PER_RUN_LIMIT)
    (expandSeed fetched)
    (fun st seed hst => by
      unfold expandSeed
      exact foldl_preserve _ (expandStep seed)
        (fun st' sug h' => expandStep_cap seed st' sug h') _ st hst)
    SEEDS ⟨(bank_keys bank).1, (bank_keys bank).2, []⟩ (by simp)
  exact this

/-- C6: after every expansion call the persisted bank has at most
`MAX_BANK_SIZE` (260) entries, and a single call creates at most
`NEW_ITEMS_PER_RUN_LIMIT` (50) new entries, for every starting bank and
every suggestion-source output. -/
theorem expand_bank_bounds (bank : List Item) (fetched : Str → List Str) :
    (expand_bank bank fetched).length ≤ MAX_BANK_SIZE
    ∧ (expandNewItems bank fetched).length ≤ NEW_ITEMS_PER_RUN_LIMIT := by
  refine ⟨?_, expandNewItems_cap bank fetched⟩
  simp only [expand_bank]
  split
  · simp
  · rename_i hle
    exact Nat.le_of_not_lt hle

theorem expandStep_constants (seed : Seed) (st : ExpSt) (sug : Str)
    (h : ∀ it ∈ st.items, it.featured = false ∧ it.rank = some 90) :
    ∀ it ∈ (expandStep seed st sug).items,
      it.featured = false ∧ it.rank = some 90 := by
  simp only [expandStep]
  split
  · exact h
  · split
    · exact h
    · split
      · exact h
      · split
        · exact h
        · intro it hit
          simp only [List.mem_append, List.mem_singleton] at hit
          rcases hit with hm | he
          · exact h it hm
          · subst he
            exact ⟨rfl, rfl⟩

/-- C10: every `TopicEntry` created by a bank-expansion run has
`featured = false` and `rank = 90`; consequently, on two such entries the
selector's candidate comparison degenerates to filename lexical order,
and an entry of strictly lower rank always strictly precedes an
auto-added (rank 90) entry in that order. -/
theorem expansion_item_constants :
    (∀ (bank : List Item) (fetched : Str → List Str),
      ∀ it ∈ expandNewItems bank fetched, it.featured = false ∧ it.rank = some 90)
    ∧ (∀ t1 t2 : Item, t1.rank = some 90 → t2.rank = some 90 →
        candLe t1 t2 = strLe t1.filename t2.filename)
    ∧ (∀ t s : Item, t.rank = some 90 → rank_of s < rank_of t →
        candLe s t = true ∧ candLe t s = false) := by
  refine ⟨?_, ?_, ?_⟩
  · intro bank fetched
    unfold expandNewItems
    exact foldl_preserve (fun st => ∀ it ∈ st.items, it.featured = false ∧ it.rank = some 90)
      (expandSeed fetched)
      (fun st seed hst => by
        unfold expandSeed
        exact foldl_preserve _ (expandStep seed)
          (fun st' sug h' => expandStep_constants seed st' sug h') _ st hst)
      SEEDS ⟨(bank_keys bank).1, (bank_keys bank).2, []⟩ (by simp)
  · intro t1 t2 h1 h2
    unfold candLe rank_of
    rw [h1, h2]
    simp
  · intro t s ht hlt
    have hne : rank_of s ≠ rank_of t := ne_of_lt hlt
    unfold candLe
    rw [if_neg hne, if_neg (Ne.symm hne)]
    constructor
    · simp [hlt]
    · simp [lt_asymm hlt]

/-- A query function for concrete witnesses: one well-formed suggestion
for the first seed query, nothing for the others. -/
def oneSugFetch : Str → List Str :=
  fun q => if q = str "round robin scheduling example" then [str "algorithm zz topic"] else []

/-- The item `expand_bank` builds from `oneSugFetch`'s single suggestion. -/
def demoItem : Item :=
  mkNewItem ⟨str "scheduling", str "round robin scheduling example"⟩ (str "scheduling")
    (str "algorithm-zz-topic-example.html") (str "algorithm zz topic")

/-- Witness for `expansion_item_constants`: its membership clause at a
concrete expansion run. -/
theorem expansion_item_constants_witness :
    demoItem.featured = false ∧ demoItem.rank = some 90 :=
  expansion_item_constants.1 [] oneSugFetch demoItem (by decide)

/-! ### `related_for` lemmas (C4) -/

theorem pushList_append (k : Nat) :
    ∀ (l merged : List Article) (seen : List Str),
      ∃ ext, (pushList k merged seen l).1 = merged ++ ext ∧ ∀ a ∈ ext, a ∈ l := by
  intro l
  induction l with
  | nil =>
    intro m s
    exact ⟨[], by simp [pushList]⟩
  | cons a rest ih =>
    intro m s
    simp only [pushList]
    split
    · obtain ⟨e, he, hsub⟩ := ih m s
      exact ⟨e, he, fun x hx => List.mem_cons_of_mem a (hsub x hx)⟩
    · split
      · exact ⟨[a], rfl, by simp⟩
      · obtain ⟨e, he, hsub⟩ := ih (m ++ [a]) (s ++ [a.url])
        refine ⟨a :: e, ?_, ?_⟩
        · rw [he]
          simp
        · intro x hx
          rcases List.mem_cons.mp hx with hxa | hxe
          · subst hxa
            simp
          · exact List.mem_cons_of_mem a (hsub x hxe)

theorem pushList_fill (k : Nat) :
    ∀ (l merged : List Article) (seen : List Str),
      (∀ a ∈ l, a.url ≠ [] ∧ a.url ∉ seen) →
      (l.map (fun a => a.url)).Nodup →
      merged.length < k →
      (pushList k merged seen l).1 = merged ++ l.take (k - merged.length) := by
  intro l
  induction l with
  | nil =>
    intro m s _ _ _
    simp [pushList]
  | cons a rest ih =>
    intro m s hgood hnodup hlen
    obtain ⟨hne, hnotin⟩ := hgood a (by simp)
    simp only [pushList]
    rw [if_neg (by
      intro hor
      rcases hor with h1 | h2
      · exact hne h1
      · exact hnotin h2)]
    by_cases hfull : k ≤ (m ++ [a]).length
    · rw [if_pos hfull]
      have hk : k - m.length = 1 := by
        simp at hfull
        omega
      rw [hk]
      simp
    · rw [if_neg hfull]
      simp only [List.map_cons, List.nodup_cons] at hnodup
      have hrec := ih (m ++ [a]) (s ++ [a.url])
        (by
          intro x hx
          obtain ⟨hxne, hxnotin⟩ := hgood x (List.mem_cons_of_mem a hx)
          refine ⟨hxne, ?_⟩
          intro hmem
          rcases List.mem_append.mp hmem with hs | hu
          · exact hxnotin hs
          · have : x.url = a.url := by simpa using hu
            exact hnodup.1 (this ▸ List.mem_map_of_mem (fun a => a.url) hx)
        )
        hnodup.2
        (by
          simp at hfull ⊢
          omega)
      rw [hrec]
      have hk : k - m.length = (k - (m ++ [a]).length) + 1 := by
        simp at hfull ⊢
        omega
      rw [hk]
      simp [List.take_succ_cons]

theorem mem_pushList {k : Nat} {l merged : List Article} {seen : List Str}
    {a : Article} (ha : a ∈ (pushList k merged seen l).1) :
    a ∈ merged ∨ a ∈ l := by
  obtain ⟨ext, hext, hsub⟩ := pushList_append k l merged seen
  rw [hext] at ha
  rcases List.mem_append.mp ha with h | h
  · exact Or.inl h
  · exact Or.inr (hsub a h)

theorem mem_sorted_filter {p : Article → Bool} {l : List Article} {a : Article}
    (ha : a ∈ pySortBy relKeyLe (l.filter p)) : p a = true :=
  List.of_mem_filter ((pySortBy_perm relKeyLe (l.filter p)).mem_iff.mp ha)

/-- C4 (amended): (a) if the corpus holds at least K = 6 records other
than the page itself whose category equals the page's category — with the
corpus' urls distinct and nonempty, as for a corpus built by scanning
files — then every computed recommendation has that category; (b) for
every corpus and page, the recommendations never contain a record whose
url equals the page's own filename. -/
theorem related_for_category_dominance :
    (∀ (filename : Str) (articles : List Article),
      (articles.map (fun a => a.url)).Nodup →
      (∀ a ∈ articles, a.url ≠ []) →
      6 ≤ (articles.filter (fun a =>
            a.url ≠ filename ∧ catOr a.category = pageCategory filename articles)).length →
      ∀ a ∈ related_for filename articles 6,
        catOr a.category = pageCategory filename articles)
    ∧ (∀ (filename : Str) (articles : List Article) (k : Nat),
        ∀ a ∈ related_for filename articles k, a.url ≠ filename) := by
  constructor
  · intro filename articles hnodup hne h6
    intro a ha
    simp only [related_for] at ha
    set scf := articles.filter (fun a =>
      a.url ≠ filename ∧ catOr a.category = pageCategory filename articles) with hscf
    set sc := pySortBy relKeyLe scf with hsc
    have hperm : sc.Perm scf := pySortBy_perm relKeyLe scf
    have hlen : 6 ≤ sc.length := by rw [hperm.length_eq]; exact h6
    have hgood : ∀ x ∈ sc, x.url ≠ [] ∧ x.url ∉ ([] : List Str) := by
      intro x hx
      exact ⟨hne x (List.mem_of_mem_filter (hperm.mem_iff.mp hx)), by simp⟩
    have hnodups : (sc.map (fun x => x.url)).Nodup := by
      have h1 : (scf.map (fun x => x.url)).Nodup :=
        List.Nodup.sublist (articles.filter_sublist.map (fun x => x.url)) hnodup
      exact ((hperm.map (fun x => x.url)).nodup_iff).mpr h1
    have hfill := pushList_fill 6 sc [] [] hgood hnodups (by norm_num)
    simp only [List.nil_append, List.length_nil, Nat.sub_zero] at hfill
    have htake : (pushList 6 [] [] sc).1.length = 6 := by
      rw [hfill, List.length_take]
      omega
    obtain ⟨e2, he2, _⟩ :=
      pushList_append 6
        (pySortBy relKeyLe (articles.filter (fun x => x.url ≠ filename ∧ x.featured = true)))
        (pushList 6 [] [] sc).1 (pushList 6 [] [] sc).2
    rw [he2] at ha
    rw [if_neg (by
      rw [List.length_append, htake]
      omega)] at ha
    rw [List.take_left' htake] at ha
    rw [hfill] at ha
    have hmem : a ∈ sc := List.take_subset _ _ ha
    have := List.of_mem_filter (hperm.mem_iff.mp hmem)
    simp only [decide_eq_true_eq] at this
    exact this.2
  · intro filename articles k a ha
    simp only [related_for] at ha
    have ha' := List.take_subset _ _ ha
    split at ha'
    · rcases mem_pushList ha' with h2 | h3
      · rcases mem_pushList h2 with h4 | h5
        · rcases mem_pushList h4 with h6 | h7
          · simp at h6
          · have := mem_sorted_filter h7
            simp only [decide_eq_true_eq] at this
            exact this.1
        · have := mem_sorted_filter h5
          simp only [decide_eq_true_eq] at this
          exact this.1
      · have := mem_sorted_filter h3
        simp only [decide_eq_true_eq] at this
        exact this
    · rcases mem_pushList ha' with h4 | h5
      · rcases mem_pushList h4 with h6 | h7
        · simp at h6
        · have := mem_sorted_filter h7
          simp only [decide_eq_true_eq] at this
          exact this.1
      · have := mem_sorted_filter h5
        simp only [decide_eq_true_eq] at this
        exact this.1

/-- Corpus for the C4 counterexample: page `p.html` of category `c`,
exactly five other category-`c` records, and one category-`d` record. -/
def cxCorpus : List Article :=
  [⟨str "p.html", str "t0", str "c", false, none⟩,
   ⟨str "u1.html", str "t1", str "c", false, none⟩,
   ⟨str "u2.html", str "t2", str "c", false, none⟩,
   ⟨str "u3.html", str "t3", str "c", false, none⟩,
   ⟨str "u4.html", str "t4", str "c", false, none⟩,
   ⟨str "u5.html", str "t5", str "c", false, none⟩,
   ⟨str "u6.html", str "t6", str "d", false, none⟩]

/-- C4 counterexample: with K−1 = 5 other same-category corpus members —
exactly the claim's hypothesis — the six computed recommendations are
*not* all of the page's category: the sixth one has category `d`. -/
theorem related_for_five_same_cat_not_enough :
    5 ≤ (cxCorpus.filter (fun a =>
          a.url ≠ str "p.html"
            ∧ catOr a.category = pageCategory (str "p.html") cxCorpus)).length
    ∧ (related_for (str "p.html") cxCorpus 6).map (fun a => a.category)
        = [str "c", str "c", str "c", str "c", str "c", str "d"] := by
  decide

/-- Corpus for the C4 witness: page `p.html` with six other
category-`c` records. -/
def wCorpus : List Article :=
  [⟨str "p.html", str "t0", str "c", false, none⟩,
   ⟨str "u1.html", str "t1", str "c", false, none⟩,
   ⟨str "u2.html", str "t2", str "c", false, none⟩,
   ⟨str "u3.html", str "t3", str "c", false, none⟩,
   ⟨str "u4.html", str "t4", str "c", false, none⟩,
   ⟨str "u5.html", str "t5", str "c", false, none⟩,
   ⟨str "u6.html", str "t6", str "c", false, none⟩]

/-- Witness for `related_for_category_dominance` at a concrete corpus
with six same-category members. -/
theorem related_for_category_dominance_witness :
    catOr (Article.mk (str "u1.html") (str "t1") (str "c") false none).category
      = pageCategory (str "p.html") wCorpus :=
  related_for_category_dominance.1 (str "p.html") wCorpus (by decide) (by decide)
    (by decide) (Article.mk (str "u1.html") (str "t1") (str "c") false none) (by decide)

/-! ### Character-class lemmas -/

theorem char_le_iff {a b : Char} : a ≤ b ↔ a.toNat ≤ b.toNat := Iff.rfl

theorem char_eq_iff {a b : Char} : a = b ↔ a.toNat = b.toNat := by
  constructor
  · intro h
    rw [h]
  · intro h
    have := congrArg Char.ofNat h
    simpa using this

theorem toNat_ofNat_of_lt {n : Nat} (h : n < 55296) : (Char.ofNat n).toNat = n := by
  rw [Char.ofNat, dif_pos (Or.inl h)]
  rfl

theorem isPySpace_iff {c : Char} :
    isPySpace c = true ↔
      (c.toNat = 32 ∨ c.toNat = 9 ∨ c.toNat = 10 ∨ c.toNat = 13
        ∨ c.toNat = 11 ∨ c.toNat = 12) := by
  unfold isPySpace
  simp only [Bool.or_eq_true, decide_eq_true_eq]
  rw [@char_eq_iff c ' ', @char_eq_iff c '\t', @char_eq_iff c '\n',
    @char_eq_iff c '\r', @char_eq_iff c '\x0b', @char_eq_iff c '\x0c']
  have e1 : (' ' : Char).toNat = 32 := by decide
  have e2 : ('\t' : Char).toNat = 9 := by decide
  have e3 : ('\n' : Char).toNat = 10 := by decide
  have e4 : ('\r' : Char).toNat = 13 := by decide
  have e5 : ('\x0b' : Char).toNat = 11 := by decide
  have e6 : ('\x0c' : Char).toNat = 12 := by decide
  rw [e1, e2, e3, e4, e5, e6]
  tauto

theorem isPySpace_lowerChar (c : Char) : isPySpace (lowerChar c) = isPySpace c := by
  unfold lowerChar
  split
  · rename_i h
    simp only [Bool.and_eq_true, decide_eq_true_eq] at h
    obtain ⟨h1, h2⟩ := h
    rw [char_le_iff] at h1 h2
    have hA : ('A' : Char).toNat = 65 := by decide
    have hZ : ('Z' : Char).toNat = 90 := by decide
    rw [hA] at h1
    rw [hZ] at h2
    have hres : (Char.ofNat (c.toNat + 32)).toNat = c.toNat + 32 :=
      toNat_ofNat_of_lt (by omega)
    have hsp1 : isPySpace (Char.ofNat (c.toNat + 32)) = false := by
      rw [Bool.eq_false_iff]
      intro hc
      rw [isPySpace_iff, hres] at hc
      omega
    have hsp2 : isPySpace c = false := by
      rw [Bool.eq_false_iff]
      intro hc
      rw [isPySpace_iff] at hc
      omega
    rw [hsp1, hsp2]
  · rfl

theorem map_eq_self_of_fixed {f : Char → Char} :
    ∀ {l : Str}, (∀ c ∈ l, f c = c) → l.map f = l := by
  intro l
  induction l with
  | nil => intro _; rfl
  | cons c cs ih =>
    intro h
    simp only [List.map_cons]
    rw [h c (by simp), ih (fun x hx => h x (List.mem_cons_of_mem c hx))]

theorem lowerStr_pyStrip (s : Str) : lowerStr (pyStrip s) = pyStrip (lowerStr s) := by
  unfold pyStrip dropEndWhile lowerStr
  have hcomp : (fun c => isPySpace (lowerChar c)) = isPySpace := by
    funext c
    exact isPySpace_lowerChar c
  rw [List.dropWhile_map, ← List.map_reverse, List.dropWhile_map, ← List.map_reverse]
  have hcomp2 : (isPySpace ∘ lowerChar) = isPySpace := by
    funext c
    exact isPySpace_lowerChar c
  rw [hcomp2]

theorem dropWhile_eq_self_of_head {p : Char → Bool} :
    ∀ {l : Str}, (∀ c, l.head? = some c → p c = false) → l.dropWhile p = l := by
  intro l h
  cases l with
  | nil => rfl
  | cons c cs =>
    have := h c rfl
    simp [List.dropWhile_cons, this]

theorem dropEndWhile_decomp (p : Char → Bool) (l : Str) :
    l = dropEndWhile p l ++ (l.reverse.takeWhile p).reverse
      ∧ ∀ c ∈ (l.reverse.takeWhile p).reverse, p c = true := by
  constructor
  · unfold dropEndWhile
    have := List.takeWhile_append_dropWhile (p := p) (l := l.reverse)
    have h2 := congrArg List.reverse this
    simp only [List.reverse_append, List.reverse_reverse] at h2
    exact h2.symm
  · intro c hc
    rw [List.mem_reverse] at hc
    exact List.mem_takeWhile_imp hc

theorem dropWhile_decomp (p : Char → Bool) (l : Str) :
    l = l.takeWhile p ++ l.dropWhile p ∧ ∀ c ∈ l.takeWhile p, p c = true :=
  ⟨(List.takeWhile_append_dropWhile p l).symm, fun _ hc => List.mem_takeWhile_imp hc⟩

theorem dropWhile_idem (p : Char → Bool) (l : Str) :
    (l.dropWhile p).dropWhile p = l.dropWhile p := by
  apply dropWhile_eq_self_of_head
  intro c hc
  have h := List.head?_dropWhile_not p l
  rw [hc] at h
  exact h

theorem reverse_pyStrip (s : Str) :
    (pyStrip s).reverse = (s.dropWhile isPySpace).reverse.dropWhile isPySpace := by
  unfold pyStrip dropEndWhile
  rw [List.reverse_reverse]

theorem pyStrip_idem (s : Str) : pyStrip (pyStrip s) = pyStrip s := by
  have h1 : (pyStrip s).dropWhile isPySpace = pyStrip s := by
    apply dropWhile_eq_self_of_head
    intro c hc
    obtain ⟨hdec, _⟩ := dropEndWhile_decomp isPySpace (s.dropWhile isPySpace)
    have hx : (s.dropWhile isPySpace).head? = some c := by
      have hps : pyStrip s = dropEndWhile isPySpace (s.dropWhile isPySpace) := rfl
      cases hA : pyStrip s with
      | nil => rw [hA] at hc; cases hc
      | cons a rest =>
        rw [hA] at hc
        cases hc
        rw [hdec, ← hps, hA]
        rfl
    have h := List.head?_dropWhile_not isPySpace s
    rw [hx] at h
    exact h
  show dropEndWhile isPySpace ((pyStrip s).dropWhile isPySpace) = pyStrip s
  rw [h1]
  unfold dropEndWhile
  rw [reverse_pyStrip, dropWhile_idem, ← reverse_pyStrip, List.reverse_reverse]

theorem normalize_text_pyStrip (s : Str) :
    normalize_text (pyStrip s) = normalize_text s := by
  unfold normalize_text
  rw [pyStrip_idem]

/-! ### Occurrence lemmas (C7) -/

/-- `n` occurs contiguously inside `h`. -/
def SubSeg (n h : Str) : Prop := ∃ u v, h = u ++ n ++ v

theorem containsStr_nil (h : Str) : containsStr h [] = true := by
  cases h <;> simp [containsStr, splitFirst, hdMatch]

theorem containsStr_cons (c : Char) (rest n : Str) :
    containsStr (c :: rest) n = (hdMatch n (c :: rest) || containsStr rest n) := by
  by_cases h : hdMatch n (c :: rest) = true
  · simp [containsStr, splitFirst, h]
  · rw [Bool.not_eq_true] at h
    simp only [containsStr, splitFirst, h]
    simp only [Bool.false_or, if_false]
    cases hs : splitFirst rest n with
    | none => simp
    | some pr =>
      obtain ⟨p, m, s⟩ := pr
      simp

theorem hdMatch_append (n t : Str) : hdMatch n (n ++ t) = true := by
  induction n with
  | nil => rfl
  | cons p ps ih => simp [hdMatch, ih]

theorem hdMatch_decomp : ∀ {n s : Str}, hdMatch n s = true → ∃ t, s = n ++ t := by
  intro n
  induction n with
  | nil => intro s _; exact ⟨s, rfl⟩
  | cons p ps ih =>
    intro s h
    cases s with
    | nil => simp [hdMatch] at h
    | cons c cs =>
      simp only [hdMatch, Bool.and_eq_true, decide_eq_true_eq] at h
      obtain ⟨t, ht⟩ := ih h.2
      exact ⟨t, by rw [h.1, ht]; rfl⟩

theorem containsStr_of_subSeg : ∀ {u n v : Str}, containsStr (u ++ n ++ v) n = true := by
  intro u
  induction u with
  | nil =>
    intro n v
    cases n with
    | nil => exact containsStr_nil v
    | cons n0 ns =>
      rw [List.nil_append, List.cons_append, containsStr_cons]
      rw [show n0 :: (ns ++ v) = (n0 :: ns) ++ v from rfl, hdMatch_append]
      rfl
  | cons c u' ih =>
    intro n v
    rw [List.cons_append, List.cons_append, containsStr_cons]
    rw [ih]
    simp

theorem splitFirst_spec :
    ∀ {h n p m s : Str}, splitFirst h n = some (p, m, s) → h = p ++ m ++ s ∧ m = n := by
  intro h
  induction h with
  | nil =>
    intro n p m s hs
    simp only [splitFirst] at hs
    split at hs
    · rename_i hn
      cases hs
      simp [hn]
    · cases hs
  | cons c rest ih =>
    intro n p m s hs
    simp only [splitFirst] at hs
    split at hs
    · rename_i hm
      cases hs
      obtain ⟨t, ht⟩ := hdMatch_decomp hm
      constructor
      · simp
      · rw [ht, List.take_left' rfl]
    · cases hrec : splitFirst rest n with
      | none => rw [hrec] at hs; cases hs
      | some pr =>
        obtain ⟨p', m', s'⟩ := pr
        rw [hrec] at hs
        cases hs
        obtain ⟨h1, h2⟩ := ih hrec
        exact ⟨by rw [List.cons_append, List.cons_append, ← h1], h2⟩

theorem subSeg_of_containsStr {h n : Str} (hc : containsStr h n = true) : SubSeg n h := by
  unfold containsStr at hc
  cases hsp : splitFirst h n with
  | none => rw [hsp] at hc; cases hc
  | some pr =>
    obtain ⟨p, m, s⟩ := pr
    obtain ⟨h1, h2⟩ := splitFirst_spec hsp
    exact ⟨p, s, by rw [h1, h2]⟩

theorem dropWhile_append_subseg {p : Char → Bool} (u w : Str)
    (hw : ∀ c, w.head? = some c → p c = false) :
    ∃ u', (u ++ w).dropWhile p = u' ++ w := by
  rw [List.dropWhile_append]
  split
  · exact ⟨[], by rw [dropWhile_eq_self_of_head hw]; simp⟩
  · exact ⟨u.dropWhile p, rfl⟩

theorem pyStrip_decomp (s : Str) :
    ∃ a b, s = a ++ pyStrip s ++ b := by
  obtain ⟨hdec, _⟩ := dropEndWhile_decomp isPySpace (s.dropWhile isPySpace)
  refine ⟨s.takeWhile isPySpace,
    ((s.dropWhile isPySpace).reverse.takeWhile isPySpace).reverse, ?_⟩
  rw [List.append_assoc]
  rw [show pyStrip s = dropEndWhile isPySpace (s.dropWhile isPySpace) from rfl]
  rw [← hdec, List.takeWhile_append_dropWhile]

theorem head?_append_left {l1 l2 : Str} {c : Char}
    (h : (l1 ++ l2).head? = some c) (hne : l1 ≠ []) : l1.head? = some c := by
  cases l1 with
  | nil => exact absurd rfl hne
  | cons a as => simpa using h

theorem mem_of_head? {l : Str} {c : Char} (h : l.head? = some c) : c ∈ l := by
  cases l with
  | nil => cases h
  | cons a as =>
    rw [List.head?_cons] at h
    cases h
    simp

theorem containsStr_pyStrip {s n : Str} (hne : n ≠ [])
    (hnw : ∀ c ∈ n, isPySpace c = false) :
    containsStr (pyStrip s) n = containsStr s n := by
  obtain ⟨n0, ns, rfl⟩ : ∃ n0 ns, n = n0 :: ns := by
    cases n with
    | nil => exact absurd rfl hne
    | cons n0 ns => exact ⟨n0, ns, rfl⟩
  cases hfull : containsStr s (n0 :: ns) with
  | true =>
    obtain ⟨u, v, huv⟩ := subSeg_of_containsStr hfull
    obtain ⟨u', hu'⟩ := dropWhile_append_subseg (p := isPySpace) u ((n0 :: ns) ++ v)
      (fun c hc => by
        rw [List.cons_append, List.head?_cons] at hc
        cases hc
        exact hnw n0 (by simp))
    have hs' : u ++ ((n0 :: ns) ++ v) = s := by
      rw [huv, List.append_assoc]
    rw [hs'] at hu'
    obtain ⟨v', hv'⟩ := dropWhile_append_subseg (p := isPySpace) v.reverse
      ((n0 :: ns).reverse ++ u'.reverse)
      (fun c hc => by
        have h2 := head?_append_left hc (by simp)
        have h3 : c ∈ (n0 :: ns).reverse := mem_of_head? h2
        exact hnw c (List.mem_reverse.mp h3))
    have hrev : (pyStrip s).reverse = v' ++ ((n0 :: ns).reverse ++ u'.reverse) := by
      rw [reverse_pyStrip, hu']
      rw [show (u' ++ ((n0 :: ns) ++ v)).reverse
          = v.reverse ++ ((n0 :: ns).reverse ++ u'.reverse) by simp]
      exact hv'
    have hback := congrArg List.reverse hrev
    rw [List.reverse_reverse] at hback
    have hshape : pyStrip s = u' ++ (n0 :: ns) ++ v'.reverse := by
      rw [hback]
      simp
    rw [hshape]
    exact containsStr_of_subSeg
  | false =>
    cases hstrip : containsStr (pyStrip s) (n0 :: ns) with
    | false => rfl
    | true =>
      exfalso
      obtain ⟨u, v, huv⟩ := subSeg_of_containsStr hstrip
      obtain ⟨a, b, hab⟩ := pyStrip_decomp s
      rw [huv] at hab
      have hcon : containsStr s (n0 :: ns) = true := by
        rw [hab]
        rw [show a ++ (u ++ (n0 :: ns) ++ v) ++ b
            = (a ++ u) ++ (n0 :: ns) ++ (v ++ b) by simp]
        exact containsStr_of_subSeg
      rw [hfull] at hcon
      cases hcon

/-- The claim's structural check on the text the generation service
returned: both `<html` and `</html>` occur, case-insensitively. -/
def hasHtmlMarkers (s : Str) : Bool :=
  containsStr (lowerStr s) (str "<html") && containsStr (lowerStr s) (str "</html>")

/-- C7 (amended): the single-page generation step fails if and only if
the service's returned text lacks an `<html` or a `</html>` marker
(case-insensitively); on failure nothing is persisted (the result carries
no file), and on success the topic's filename is written with the
*whitespace-stripped* returned text (the source strips before the check
and the write — not the verbatim text, see the counterexample). -/
theorem generate_one_new_page_spec (topic : Item) (resp : Str) :
    ((generate_one_new_page topic resp).isOk = hasHtmlMarkers resp)
    ∧ (∀ f h, generate_one_new_page topic resp = .ok (f, h) →
        f = topic.filename ∧ h = pyStrip resp) := by
  have hA : containsStr (lowerStr (pyStrip resp)) (str "<html")
      = containsStr (lowerStr resp) (str "<html") := by
    rw [lowerStr_pyStrip]
    exact containsStr_pyStrip (by decide) (by decide)
  have hB : containsStr (lowerStr (pyStrip resp)) (str "</html>")
      = containsStr (lowerStr resp) (str "</html>") := by
    rw [lowerStr_pyStrip]
    exact containsStr_pyStrip (by decide) (by decide)
  constructor
  · simp only [generate_one_new_page]
    split
    · rename_i hcond
      simp only [Bool.or_eq_true, Bool.not_eq_true'] at hcond
      unfold hasHtmlMarkers
      rw [← hA, ← hB]
      rcases hcond with hc | hc <;> simp [Except.isOk, Except.toBool, hc]
    · rename_i hcond
      simp only [Bool.or_eq_true, Bool.not_eq_true', not_or] at hcond
      simp only [Bool.not_eq_false] at hcond
      unfold hasHtmlMarkers
      rw [← hA, ← hB]
      simp [Except.isOk, Except.toBool, hcond.1, hcond.2]
  · intro f h heq
    simp only [generate_one_new_page] at heq
    split at heq
    · cases heq
    · cases heq
      exact ⟨rfl, rfl⟩

/-- Witness for `generate_one_new_page_spec`: the persistence clause at
a concrete successfully validated response. -/
theorem generate_one_new_page_spec_witness :
    str "a.html" = scenA.filename
    ∧ str "<html></html>" = pyStrip (str " <html></html>") :=
  (generate_one_new_page_spec scenA (str " <html></html>")).2
    (str "a.html") (str "<html></html>") (by decide)

/-- C7 counterexample: on a returned text with a trailing newline the
step succeeds but persists the stripped text, which differs from the
returned text — the claim's "persisted verbatim" is false. -/
theorem generate_one_new_page_not_verbatim :
    generate_one_new_page scenA (str "<html></html>\n")
        = .ok (scenA.filename, str "<html></html>")
    ∧ str "<html></html>" ≠ str "<html></html>\n" := by
  decide

/-! ### Slug character classification (C5) -/

/-- Lowercase ASCII alphanumeric. -/
def isWordChar (c : Char) : Bool :=
  ('a' ≤ c && c ≤ 'z') || ('0' ≤ c && c ≤ '9')

/-- The characters `slugify_filename` can emit. -/
def isSlugChar (c : Char) : Bool := isWordChar c || c = '-' || c = '.'

theorem isSlugKeep_split {c : Char} (h : isSlugKeep c = true) :
    isWordChar c = true ∨ isPySpace c = true := by
  unfold isSlugKeep at h
  unfold isWordChar
  rcases Bool.or_eq_true_iff.mp h with h1 | h2
  · left
    rw [Bool.or_eq_true_iff]
    rcases Bool.or_eq_true_iff.mp h1 with ha | hb
    · exact Or.inl ha
    · exact Or.inr hb
  · exact Or.inr h2

theorem mem_badRunGo : ∀ (b : Bool) (s : Str) (c : Char), c ∈ badRunGo b s →
    isWordChar c = true ∨ isPySpace c = true := by
  intro b s
  induction s generalizing b with
  | nil => intro c hc; cases hc
  | cons x rest ih =>
    intro c hc
    simp only [badRunGo] at hc
    split at hc
    · rcases List.mem_cons.mp hc with h | h
      · subst h
        exact isSlugKeep_split (by assumption)
      · exact ih false c h
    · split at hc
      · exact ih true c hc
      · rcases List.mem_cons.mp hc with h | h
        · subst h
          right
          decide
        · exact ih true c h

theorem mem_collapseGo : ∀ (b : Bool) (s : Str) (c : Char), c ∈ collapseGo b s →
    (c ∈ s ∧ isPySpace c = false) ∨ c = ' ' := by
  intro b s
  induction s generalizing b with
  | nil => intro c hc; cases hc
  | cons x rest ih =>
    intro c hc
    simp only [collapseGo] at hc
    split at hc
    · split at hc
      · rcases ih true c hc with ⟨h1, h2⟩ | h
        · exact Or.inl ⟨List.mem_cons_of_mem x h1, h2⟩
        · exact Or.inr h
      · rcases List.mem_cons.mp hc with h | h
        · exact Or.inr h
        · rcases ih true c h with ⟨h1, h2⟩ | h'
          · exact Or.inl ⟨List.mem_cons_of_mem x h1, h2⟩
          · exact Or.inr h'
    · rcases List.mem_cons.mp hc with h | h
      · subst h
        rename_i hns
        exact Or.inl ⟨by simp, Bool.not_eq_true _ ▸ hns⟩
      · rcases ih false c h with ⟨h1, h2⟩ | h'
        · exact Or.inl ⟨List.mem_cons_of_mem x h1, h2⟩
        · exact Or.inr h'

theorem mem_dropEndWhile {p : Char → Bool} {l : Str} {c : Char}
    (h : c ∈ dropEndWhile p l) : c ∈ l := by
  unfold dropEndWhile at h
  rw [List.mem_reverse] at h
  have := List.dropWhile_subset p h
  rwa [List.mem_reverse] at this

theorem mem_pyStrip {s : Str} {c : Char} (h : c ∈ pyStrip s) : c ∈ s := by
  unfold pyStrip at h
  exact List.dropWhile_subset isPySpace (mem_dropEndWhile h)

theorem mem_splitOnChar (sep : Char) : ∀ (s : Str) (piece : Str),
    piece ∈ splitOnChar sep s → ∀ c ∈ piece, c ∈ s ∧ c ≠ sep := by
  intro s
  induction s with
  | nil =>
    intro piece hp c hc
    simp only [splitOnChar] at hp
    rcases List.mem_singleton.mp hp with rfl
    cases hc
  | cons x rest ih =>
    intro piece hp c hc
    simp only [splitOnChar] at hp
    split at hp
    · rcases List.mem_cons.mp hp with h | h
      · subst h
        cases hc
      · obtain ⟨h1, h2⟩ := ih piece h c hc
        exact ⟨List.mem_cons_of_mem x h1, h2⟩
    · rename_i hxsep
      cases hrec : splitOnChar sep rest with
      | nil =>
        rw [hrec] at hp
        rcases List.mem_singleton.mp hp with rfl
        rcases List.mem_singleton.mp hc with rfl
        exact ⟨by simp, hxsep⟩
      | cons p ps =>
        rw [hrec] at hp
        rcases List.mem_cons.mp hp with h | h
        · subst h
          rcases List.mem_cons.mp hc with h' | h'
          · subst h'
            exact ⟨by simp, hxsep⟩
          · obtain ⟨h1, h2⟩ := ih p (hrec ▸ List.mem_cons_self p ps) c h'
            exact ⟨List.mem_cons_of_mem x h1, h2⟩
        · obtain ⟨h1, h2⟩ := ih piece (hrec ▸ List.mem_cons_of_mem p h) c hc
          exact ⟨List.mem_cons_of_mem x h1, h2⟩

theorem mem_joinWith (sep : Str) : ∀ (parts : List Str) (c : Char),
    c ∈ joinWith sep parts → c ∈ sep ∨ ∃ p ∈ parts, c ∈ p := by
  intro parts
  induction parts with
  | nil => intro c hc; cases hc
  | cons p ps ih =>
    intro c hc
    cases ps with
    | nil =>
      right
      exact ⟨p, by simp, hc⟩
    | cons q qs =>
      simp only [joinWith] at hc
      rcases List.mem_append.mp hc with h | h
      · rcases List.mem_append.mp h with h' | h'
        · exact Or.inr ⟨p, by simp, h'⟩
        · exact Or.inl h'
      · rcases ih c h with h' | ⟨r, hr, hcr⟩
        · exact Or.inl h'
        · exact Or.inr ⟨r, List.mem_cons_of_mem p hr, hcr⟩

theorem slugify_chars (topic : Str) :
    ∀ c ∈ slugify_filename topic, isSlugChar c = true := by
  intro c hc
  simp only [slugify_filename] at hc
  rcases List.mem_append.mp hc with hbase | hext
  · have hword : ∀ x ∈ pyStrip (collapseWs (subBadRuns
        (replaceAll (replaceAll (replaceAll (replaceAll (normalize_text topic)
          (str "banker's") (str "bankers")) (str "banker’s") (str "bankers"))
          (str "(srtf)") (str "srtf")) (str "(opt)") (str "opt")))),
        isWordChar x = true ∨ x = ' ' := by
      intro x hx
      have hx2 := mem_pyStrip hx
      rcases mem_collapseGo false _ x hx2 with ⟨h1, h2⟩ | h
      · rcases mem_badRunGo false _ x h1 with h' | h'
        · exact Or.inl h'
        · rw [h2] at h'
          cases h'
      · exact Or.inr h
    set t2 := pyStrip (collapseWs (subBadRuns
        (replaceAll (replaceAll (replaceAll (replaceAll (normalize_text topic)
          (str "banker's") (str "bankers")) (str "banker’s") (str "bankers"))
          (str "(srtf)") (str "srtf")) (str "(opt)") (str "opt")))) with ht2
    have hbase0 : ∀ x ∈ stripHyphens (joinWith (str "-") ((splitOnChar ' ' t2).take 10)),
        isSlugChar x = true := by
      intro x hx
      rw [show stripHyphens (joinWith (str "-") ((splitOnChar ' ' t2).take 10))
          = dropEndWhile (· = '-')
              ((joinWith (str "-") ((splitOnChar ' ' t2).take 10)).dropWhile (· = '-'))
          from rfl] at hx
      have hx0 := mem_dropEndWhile hx
      have hx1 := List.dropWhile_subset (fun c => c = '-') hx0
      rcases mem_joinWith (str "-") _ x hx1 with h | ⟨p, hp, hxp⟩
      · unfold isSlugChar
        have : x = '-' := by simpa [str] using h
        simp [this]
      · have hp' := List.take_subset 10 _ hp
        obtain ⟨h1, h2⟩ := mem_splitOnChar ' ' t2 p hp' x hxp
        rcases hword x h1 with hw | hsp
        · unfold isSlugChar
          simp [hw]
        · exact absurd hsp h2
    have hwe : ∀ x ∈ str "worked-example", isSlugChar x = true := by decide
    have hex : ∀ x ∈ str "-example", isSlugChar x = true := by decide
    split at hbase
    · rw [if_neg (by decide)] at hbase
      exact hwe c hbase
    · split at hbase
      · rcases List.mem_append.mp hbase with h | h
        · exact hbase0 c h
        · exact hex c h
      · exact hbase0 c hbase
  · exact (by decide : ∀ x ∈ str ".html", isSlugChar x = true) c hext

theorem lowerChar_eq_self_of_slug {c : Char} (h : isSlugChar c = true) :
    lowerChar c = c := by
  unfold lowerChar
  split
  · rename_i hr
    exfalso
    simp only [Bool.and_eq_true, decide_eq_true_eq] at hr
    obtain ⟨h1, h2⟩ := hr
    rw [char_le_iff] at h1 h2
    have hA : ('A' : Char).toNat = 65 := by decide
    have hZ : ('Z' : Char).toNat = 90 := by decide
    rw [hA] at h1
    rw [hZ] at h2
    unfold isSlugChar isWordChar at h
    simp only [Bool.or_eq_true, Bool.and_eq_true, decide_eq_true_eq] at h
    have ha : ('a' : Char).toNat = 97 := by decide
    have hz : ('z' : Char).toNat = 122 := by decide
    have h0 : ('0' : Char).toNat = 48 := by decide
    have h9 : ('9' : Char).toNat = 57 := by decide
    have hhy : ('-' : Char).toNat = 45 := by decide
    have hdot : ('.' : Char).toNat = 46 := by decide
    rcases h with ((⟨hl, hu⟩ | ⟨hl, hu⟩) | he) | he
    · rw [char_le_iff, ha] at hl
      rw [char_le_iff, hz] at hu
      omega
    · rw [char_le_iff, h0] at hl
      rw [char_le_iff, h9] at hu
      omega
    · rw [char_eq_iff, hhy] at he
      omega
    · rw [char_eq_iff, hdot] at he
      omega
  · rfl

theorem slugify_lower (t : Str) :
    lowerStr (slugify_filename t) = slugify_filename t :=
  map_eq_self_of_fixed (fun c hc => lowerChar_eq_self_of_slug (slugify_chars t c hc))

theorem slugify_ne_nil (t : Str) : slugify_filename t ≠ [] := by
  unfold slugify_filename
  simp [str]

/-! ### Second-expansion idleness (C5) -/

theorem expandStep_growth (seed : Seed) (st : ExpSt) (sug : Str) :
    ∃ ef et ei, (expandStep seed st sug).fns = st.fns ++ ef
      ∧ (expandStep seed st sug).titles = st.titles ++ et
      ∧ (expandStep seed st sug).items = st.items ++ ei := by
  simp only [expandStep]
  split
  · exact ⟨[], [], [], by simp, by simp, by simp⟩
  · split
    · exact ⟨[], [], [], by simp, by simp, by simp⟩
    · split
      · exact ⟨[], [], [], by simp, by simp, by simp⟩
      · split
        · exact ⟨[], [], [], by simp, by simp, by simp⟩
        · exact ⟨_, _, _, rfl, rfl, rfl⟩

theorem foldl_growth {β : Type _} (f : ExpSt → β → ExpSt)
    (hf : ∀ st b, ∃ ef et ei, (f st b).fns = st.fns ++ ef
      ∧ (f st b).titles = st.titles ++ et ∧ (f st b).items = st.items ++ ei) :
    ∀ (l : List β) (st : ExpSt), ∃ ef et ei, (l.foldl f st).fns = st.fns ++ ef
      ∧ (l.foldl f st).titles = st.titles ++ et
      ∧ (l.foldl f st).items = st.items ++ ei := by
  intro l
  induction l with
  | nil => intro st; exact ⟨[], [], [], by simp, by simp, by simp⟩
  | cons b bs ih =>
    intro st
    obtain ⟨e1, e2, e3, h1, h2, h3⟩ := hf st b
    obtain ⟨g1, g2, g3, k1, k2, k3⟩ := ih (f st b)
    exact ⟨e1 ++ g1, e2 ++ g2, e3 ++ g3,
      by simp [k1, h1], by simp [k2, h2], by simp [k3, h3]⟩

theorem expandSeed_growth (fetched : Str → List Str) (st : ExpSt) (seed : Seed) :
    ∃ ef et ei, (expandSeed fetched st seed).fns = st.fns ++ ef
      ∧ (expandSeed fetched st seed).titles = st.titles ++ et
      ∧ (expandSeed fetched st seed).items = st.items ++ ei :=
  foldl_growth (expandStep seed) (expandStep_growth seed)
    ((fetched seed.query).take 10) st

theorem pyStrip_ne_nil_of_not_bad {s : Str} (h : is_bad_topic s = false) :
    pyStrip s ≠ [] := by
  intro hnil
  unfold is_bad_topic at h
  rw [show normalize_text s = collapseWs (lowerStr (pyStrip s)) from rfl, hnil] at h
  simp [lowerStr, collapseWs, collapseGo] at h

/-- The loop invariant of `expand_bank`'s suggestion loop, relative to
the initial dedup keys. -/
def BankInv (fns0 titles0 : List Str) (st : ExpSt) : Prop :=
  st.fns = fns0 ++ st.items.map (fun it => it.filename)
  ∧ st.titles = titles0 ++ st.items.map (fun it => it.tags)
  ∧ st.fns.Nodup
  ∧ ∀ it ∈ st.items, lowerStr it.filename = it.filename ∧ it.filename ≠ []
      ∧ normalize_text it.title_hint = it.tags ∧ it.title_hint ≠ []

set_option maxHeartbeats 1600000 in
theorem expandStep_inv {fns0 titles0 : List Str} (seed : Seed) (st : ExpSt)
    (sug : Str) (h : BankInv fns0 titles0 st) :
    BankInv fns0 titles0 (expandStep seed st sug) := by
  obtain ⟨h1, h2, h3, h4⟩ := h
  simp only [expandStep]
  split
  · exact ⟨h1, h2, h3, h4⟩
  · split
    · exact ⟨h1, h2, h3, h4⟩
    · split
      · exact ⟨h1, h2, h3, h4⟩
      · split
        · exact ⟨h1, h2, h3, h4⟩
        · rename_i hcap hbad hfn htl
          have hbad' : is_bad_topic sug = false := Bool.not_eq_true _ ▸ hbad
          refine ⟨?_, ?_, ?_, ?_⟩
          · simp only [List.map_append, List.map_cons, List.map_nil]
            rw [h1, slugify_lower, List.append_assoc]
            rfl
          · simp only [List.map_append, List.map_cons, List.map_nil]
            rw [h2, List.append_assoc]
            rfl
          · simp only []
            rw [List.nodup_append]
            refine ⟨h3, by simp, ?_⟩
            intro x hx hx2
            rw [List.mem_singleton] at hx2
            rw [hx2] at hx
            exact hfn hx
          · intro it hit
            simp only [] at hit
            rcases List.mem_append.mp hit with hm | hnew
            · exact h4 it hm
            · rw [List.mem_singleton] at hnew
              rw [hnew]
              exact ⟨slugify_lower sug, slugify_ne_nil sug,
                normalize_text_pyStrip sug, pyStrip_ne_nil_of_not_bad hbad'⟩

theorem expandStep_covered (seed : Seed) (st : ExpSt) (sug : Str)
    (hlen : st.items.length < NEW_ITEMS_PER_RUN_LIMIT)
    (hbad : is_bad_topic sug = false) :
    lowerStr (slugify_filename sug) ∈ (expandStep seed st sug).fns
    ∨ normalize_text sug ∈ (expandStep seed st sug).titles := by
  simp only [expandStep]
  rw [if_neg (Nat.not_le.mpr hlen), if_neg (by rw [hbad]; exact Bool.false_ne_true)]
  split
  · left
    assumption
  · split
    · right
      assumption
    · left
      simp

theorem fold_covered_sug (seed : Seed) :
    ∀ (L : List Str) (st : ExpSt),
      (L.foldl (expandStep seed) st).items.length < NEW_ITEMS_PER_RUN_LIMIT →
      ∀ sug ∈ L, is_bad_topic sug = false →
        lowerStr (slugify_filename sug) ∈ (L.foldl (expandStep seed) st).fns
        ∨ normalize_text sug ∈ (L.foldl (expandStep seed) st).titles := by
  intro L
  induction L with
  | nil => intro st _ sug hsug; cases hsug
  | cons g gs ih =>
    intro st hcap sug hsug hbad
    rw [List.foldl_cons] at hcap ⊢
    obtain ⟨ef, et, ei, hf, ht, hi⟩ :=
      foldl_growth (expandStep seed) (expandStep_growth seed) gs (expandStep seed st g)
    rcases List.mem_cons.mp hsug with hg | hgs
    · have hlen : st.items.length < NEW_ITEMS_PER_RUN_LIMIT := by
        obtain ⟨_, _, ei2, _, _, hi2⟩ := expandStep_growth seed st g
        rw [hi, hi2] at hcap
        simp at hcap
        omega
      rw [hg] at hbad
      rw [hg]
      rcases expandStep_covered seed st g hlen hbad with h | h
      · left
        rw [hf]
        exact List.mem_append_left _ h
      · right
        rw [ht]
        exact List.mem_append_left _ h
    · exact ih (expandStep seed st g) hcap sug hgs hbad

theorem fold_covered_seeds (fetched : Str → List Str) :
    ∀ (Ls : List Seed) (st : ExpSt),
      (Ls.foldl (expandSeed fetched) st).items.length < NEW_ITEMS_PER_RUN_LIMIT →
      ∀ seed ∈ Ls, ∀ sug ∈ (fetched seed.query).take 10, is_bad_topic sug = false →
        lowerStr (slugify_filename sug) ∈ (Ls.foldl (expandSeed fetched) st).fns
        ∨ normalize_text sug ∈ (Ls.foldl (expandSeed fetched) st).titles := by
  intro Ls
  induction Ls with
  | nil => intro st _ seed hseed; cases hseed
  | cons sd sds ih =>
    intro st hcap seed hseed sug hsug hbad
    rw [List.foldl_cons] at hcap ⊢
    obtain ⟨ef, et, ei, hf, ht, hi⟩ :=
      foldl_growth (expandSeed fetched) (expandSeed_growth fetched) sds
        (expandSeed fetched st sd)
    rcases List.mem_cons.mp hseed with hs | hss
    · have hcap1 : (expandSeed fetched st sd).items.length < NEW_ITEMS_PER_RUN_LIMIT := by
        rw [hi] at hcap
        simp at hcap
        omega
      rw [hs] at hsug
      rcases fold_covered_sug sd ((fetched sd.query).take 10) st hcap1 sug hsug hbad
          with h | h
      · left
        rw [hf]
        exact List.mem_append_left _ h
      · right
        rw [ht]
        exact List.mem_append_left _ h
    · exact ih (expandSeed fetched st sd) hcap seed hss sug hsug hbad

theorem expandStep_noop (seed : Seed) (fns titles : List Str) (sug : Str)
    (hcov : is_bad_topic sug = false →
      lowerStr (slugify_filename sug) ∈ fns ∨ normalize_text sug ∈ titles) :
    expandStep seed ⟨fns, titles, []⟩ sug = ⟨fns, titles, []⟩ := by
  simp only [expandStep]
  rw [if_neg (by simp [NEW_ITEMS_PER_RUN_LIMIT])]
  by_cases hbad : is_bad_topic sug = true
  · rw [if_pos hbad]
  · rw [if_neg hbad]
    rcases hcov (Bool.not_eq_true _ ▸ hbad) with h | h
    · rw [if_pos h]
    · by_cases hfn : lowerStr (slugify_filename sug) ∈ fns
      · rw [if_pos hfn]
      · rw [if_neg hfn, if_pos h]

theorem fold_noop_sug (seed : Seed) (fns titles : List Str) :
    ∀ (L : List Str),
      (∀ sug ∈ L, is_bad_topic sug = false →
        lowerStr (slugify_filename sug) ∈ fns ∨ normalize_text sug ∈ titles) →
      L.foldl (expandStep seed) ⟨fns, titles, []⟩ = ⟨fns, titles, []⟩ := by
  intro L
  induction L with
  | nil => intro _; rfl
  | cons g gs ih =>
    intro h
    rw [List.foldl_cons, expandStep_noop seed fns titles g (h g (by simp))]
    exact ih (fun sug hs => h sug (List.mem_cons_of_mem g hs))

theorem fold_noop_seeds (fetched : Str → List Str) (fns titles : List Str) :
    ∀ (Ls : List Seed),
      (∀ seed ∈ Ls, ∀ sug ∈ (fetched seed.query).take 10, is_bad_topic sug = false →
        lowerStr (slugify_filename sug) ∈ fns ∨ normalize_text sug ∈ titles) →
      Ls.foldl (expandSeed fetched) ⟨fns, titles, []⟩ = ⟨fns, titles, []⟩ := by
  intro Ls
  induction Ls with
  | nil => intro _; rfl
  | cons sd sds ih =>
    intro h
    rw [List.foldl_cons]
    rw [show expandSeed fetched ⟨fns, titles, []⟩ sd = ⟨fns, titles, []⟩ from
      fold_noop_sug sd fns titles _ (h sd (by simp))]
    exact ih (fun seed hs => h seed (List.mem_cons_of_mem sd hs))

theorem dedupe_eq_self : ∀ (l : List Item) (seen : List Str),
    (∀ x ∈ l, x.filename ≠ [] ∧ lowerStr x.filename ∉ seen) →
    (l.map (fun x => lowerStr x.filename)).Nodup →
    dedupeByFilename seen l = l := by
  intro l
  induction l with
  | nil => intro seen _ _; rfl
  | cons x rest ih =>
    intro seen hgood hnodup
    obtain ⟨hne, hnotin⟩ := hgood x (by simp)
    simp only [dedupeByFilename]
    rw [if_neg (by
      intro hor
      rcases hor with h1 | h2
      · exact hne (by simpa [lowerStr] using h1)
      · exact hnotin h2)]
    simp only [List.map_cons, List.nodup_cons] at hnodup
    rw [ih (seen ++ [lowerStr x.filename])
      (by
        intro y hy
        obtain ⟨hyne, hynot⟩ := hgood y (List.mem_cons_of_mem x hy)
        refine ⟨hyne, ?_⟩
        intro hmem
        rcases List.mem_append.mp hmem with h | h
        · exact hynot h
        · rw [List.mem_singleton] at h
          exact hnodup.1 (h ▸ List.mem_map_of_mem (fun z => lowerStr z.filename) hy))
      hnodup.2]

theorem expandSeed_inv {fns0 titles0 : List Str} (fetched : Str → List Str)
    (st : ExpSt) (seed : Seed) (h : BankInv fns0 titles0 st) :
    BankInv fns0 titles0 (expandSeed fetched st seed) := by
  unfold expandSeed
  exact foldl_preserve _ (expandStep seed)
    (fun st' sug h' => expandStep_inv seed st' sug h') _ st h

theorem expandFold_inv (bank : List Item) (fetched : Str → List Str)
    (hnd : (bank.map (fun x => lowerStr x.filename)).Nodup) :
    BankInv (bank_keys bank).1 (bank_keys bank).2
      (SEEDS.foldl (expandSeed fetched) ⟨(bank_keys bank).1, (bank_keys bank).2, []⟩) := by
  refine foldl_preserve _ (expandSeed fetched)
    (fun st seed h => expandSeed_inv fetched st seed h) SEEDS _ ?_
  exact ⟨by simp, by simp, hnd, by simp⟩

theorem expand_bank_idle_of_inv (bank : List Item) (fetched : Str → List Str) (F : ExpSt)
    (hFeq : SEEDS.foldl (expandSeed fetched) ⟨(bank_keys bank).1, (bank_keys bank).2, []⟩ = F)
    (hinv : BankInv (bank_keys bank).1 (bank_keys bank).2 F)
    (hne : ∀ x ∈ bank, x.filename ≠ [])
    (hcap : F.items.length < NEW_ITEMS_PER_RUN_LIMIT)
    (hsize : (bank ++ F.items).length ≤ MAX_BANK_SIZE) :
    expandNewItems (expand_bank bank fetched) fetched = []
    ∧ expand_bank (expand_bank bank fetched) fetched = expand_bank bank fetched := by
  obtain ⟨hf, ht, hndF, hitems⟩ := hinv
  have hNI : expandNewItems bank fetched = F.items := by
    simp only [expandNewItems]
    rw [hFeq]
  have hmap : (bank ++ F.items).map (fun x => lowerStr x.filename) = F.fns := by
    rw [List.map_append, hf]
    congr 1
    exact List.map_congr_left (fun it hit => (hitems it hit).1)
  have hgood : ∀ x ∈ bank ++ F.items,
      x.filename ≠ [] ∧ lowerStr x.filename ∉ ([] : List Str) := by
    intro x hx
    refine ⟨?_, by simp⟩
    rcases List.mem_append.mp hx with h | h
    · exact hne x h
    · exact (hitems x h).2.1
  have hded : dedupeByFilename [] (bank ++ F.items) = bank ++ F.items :=
    dedupe_eq_self (bank ++ F.items) [] hgood (by rw [hmap]; exact hndF)
  have hb1 : expand_bank bank fetched = bank ++ F.items := by
    simp only [expand_bank]
    rw [hNI, hded, if_neg (Nat.not_lt.mpr hsize)]
  have hkey1 : (bank_keys (bank ++ F.items)).1 = F.fns := hmap
  have hkey2 : (bank_keys (bank ++ F.items)).2 = F.titles := by
    show ((bank ++ F.items).filter (fun x => x.title_hint ≠ [])).map
        (fun x => normalize_text x.title_hint) = F.titles
    rw [List.filter_append, List.map_append, ht]
    congr 1
    have hfe : F.items.filter (fun x => x.title_hint ≠ []) = F.items :=
      List.filter_eq_self.mpr (fun a ha => decide_eq_true (hitems a ha).2.2.2)
    rw [hfe]
    exact List.map_congr_left (fun it hit => (hitems it hit).2.2.1)
  have hcov : ∀ seed ∈ SEEDS, ∀ sug ∈ (fetched seed.query).take 10,
      is_bad_topic sug = false →
      lowerStr (slugify_filename sug) ∈ F.fns ∨ normalize_text sug ∈ F.titles := by
    intro seed hs sug hsug hbad
    have hc := fold_covered_seeds fetched SEEDS ⟨(bank_keys bank).1, (bank_keys bank).2, []⟩
      (by rw [hFeq]; exact hcap) seed hs sug hsug hbad
    rw [hFeq] at hc
    exact hc
  have hsnd : expandNewItems (bank ++ F.items) fetched = [] := by
    simp only [expandNewItems]
    rw [hkey1, hkey2]
    rw [fold_noop_seeds fetched F.fns F.titles SEEDS hcov]
  refine ⟨?_, ?_⟩
  · rw [hb1]
    exact hsnd
  · rw [hb1]
    simp only [expand_bank]
    rw [hsnd, List.append_nil, hded, if_neg (Nat.not_lt.mpr hsize)]

/-- C5 (corrected): dedup idempotence of bank expansion holds only when the
first pass hits neither cap.  If the loaded bank's lowercased filenames are
distinct and nonempty, the first pass creates fewer than the per-run limit
of new items, and the merged bank fits under the size cap, then a second
expansion from the same suggestion source adds zero new entries and writes
an unchanged bank. -/
theorem expand_bank_second_pass_idle (bank : List Item) (fetched : Str → List Str)
    (hne : ∀ x ∈ bank, x.filename ≠ [])
    (hnd : (bank.map (fun x => lowerStr x.filename)).Nodup)
    (hcap : (expandNewItems bank fetched).length < NEW_ITEMS_PER_RUN_LIMIT)
    (hsize : (bank ++ expandNewItems bank fetched).length ≤ MAX_BANK_SIZE) :
    expandNewItems (expand_bank bank fetched) fetched = []
    ∧ expand_bank (expand_bank bank fetched) fetched = expand_bank bank fetched :=
  expand_bank_idle_of_inv bank fetched _ rfl (expandFold_inv bank fetched hnd)
    hne hcap hsize

/-- Witness for `expand_bank_second_pass_idle`: expanding an empty bank
from a source with a single accepted suggestion, then expanding again,
adds nothing the second time. -/
theorem expand_bank_second_pass_idle_witness :
    expandNewItems (expand_bank [] oneSugFetch) oneSugFetch = []
    ∧ expand_bank (expand_bank [] oneSugFetch) oneSugFetch = expand_bank [] oneSugFetch :=
  expand_bank_second_pass_idle [] oneSugFetch (by simp) (by simp) (by decide) (by decide)

/-- Decimal digit character. -/
def digitChar (d : Nat) : Char := Char.ofNat (48 + d % 10)

/-- Three-decimal-digit string for `n`. -/
def pad3 (n : Nat) : Str := [digitChar (n / 100), digitChar (n / 10), digitChar n]

/-- A suggestion source giving the first five seed queries ten distinct
acceptable suggestions each, and the sixth query one more. -/
def c5Fetch (q : Str) : List Str :=
  match (SEEDS.map Seed.query).findIdx? (fun s => s = q) with
  | none => []
  | some i =>
    if i < 5 then
      (List.range 10).map (fun j => 'a' :: pad3 (10 * i + j) ++ str " algorithm example")
    else if i = 5 then ['a' :: pad3 50 ++ str " algorithm example"]
    else []

/-- C5 counterexample: starting from an empty bank, a source offering 51
acceptable suggestions makes the first pass stop at the per-run cap of 50,
so the 51st suggestion is neither added nor keyed; the second pass from
the same source accepts it, adding a new entry — the second pass is not
idle. -/
theorem expand_bank_second_pass_readds :
    expandNewItems (expand_bank [] c5Fetch) c5Fetch ≠ [] := by
  intro hcon
  have h2 : (expandNewItems (expand_bank [] c5Fetch) c5Fetch).length = 1 := by decide
  rw [hcon] at h2
  cases h2

/-- C3 (corrected): the persisted bank is always a leading slice of the
merged, deduplicated list in its original (bank-then-append) order — the
code truncates without any sort — and its length is the deduplicated
length clamped to the size cap. -/
theorem expand_bank_trunc_in_order (bank : List Item) (fetched : Str → List Str) :
    (∃ t, expand_bank bank fetched ++ t
        = dedupeByFilename [] (bank ++ expandNewItems bank fetched))
    ∧ (expand_bank bank fetched).length
        = min MAX_BANK_SIZE
            (dedupeByFilename [] (bank ++ expandNewItems bank fetched)).length := by
  simp only [expand_bank]
  split
  · refine ⟨⟨(dedupeByFilename [] (bank ++ expandNewItems bank fetched)).drop MAX_BANK_SIZE,
      List.take_append_drop _ _⟩, ?_⟩
    rw [List.length_take]
  · rename_i hle
    exact ⟨⟨[], List.append_nil _⟩, (Nat.min_eq_right (Nat.le_of_not_lt hle)).symm⟩

theorem minFirstBy_last {α : Type _} (le : α → α → Bool) :
    ∀ (l : List α) (z : α), (∀ a ∈ l, le a z = false) →
      minFirstBy le (l ++ [z]) = some z := by
  intro l
  induction l with
  | nil =>
    intro z _
    rfl
  | cons x rest ih =>
    intro z h
    have hx := h x (by simp)
    rw [List.cons_append]
    simp only [minFirstBy]
    rw [ih z (fun a ha => h a (List.mem_cons_of_mem x ha))]
    show some (if le x z then x else z) = some z
    rw [hx]
    simp

theorem digitChar_toNat (d : Nat) : (digitChar d).toNat = 48 + d % 10 := by
  unfold digitChar
  exact toNat_ofNat_of_lt (by omega)

theorem pad3_inj {n m : Nat} (hn : n < 1000) (hm : m < 1000) (h : pad3 n = pad3 m) :
    n = m := by
  simp only [pad3, List.cons.injEq, and_true] at h
  obtain ⟨h1, h2, h3⟩ := h
  have e1 := congrArg Char.toNat h1
  have e2 := congrArg Char.toNat h2
  have e3 := congrArg Char.toNat h3
  rw [digitChar_toNat, digitChar_toNat] at e1 e2 e3
  omega

theorem pad3_ne_zzz (n : Nat) : pad3 n ≠ str "zzz" := by
  intro h
  rw [show str "zzz" = ['z', 'z', 'z'] from rfl] at h
  simp only [pad3, List.cons.injEq] at h
  have e1 := congrArg Char.toNat h.1
  rw [digitChar_toNat, show ('z').toNat = 122 from by decide] at e1
  omega

theorem lowerChar_digit (d : Nat) : lowerChar (digitChar d) = digitChar d := by
  unfold lowerChar
  rw [if_neg]
  intro hcon
  rw [Bool.and_eq_true] at hcon
  have h1 := of_decide_eq_true hcon.1
  rw [char_le_iff, digitChar_toNat, show ('A').toNat = 65 from by decide] at h1
  omega

theorem lowerStr_pad3 (n : Nat) : lowerStr (pad3 n) = pad3 n := by
  simp [pad3, lowerStr, lowerChar_digit]

/-- A bank entry with filename `pad3 n` and the expansion default rank. -/
def c3Item (n : Nat) : Item :=
  { filename := pad3 n
    category := str "other"
    featured := false
    rank := some 90
    tags := []
    title_hint := []
    prompt := str "p"
    source := str "b"
    seed := str "b" }

/-- A bank entry whose rank (1) is strictly lowest but whose filename
sorts last; it sits at the end of the oversized bank. -/
def zzzItem : Item :=
  { filename := str "zzz"
    category := str "other"
    featured := false
    rank := some 1
    tags := []
    title_hint := []
    prompt := str "p"
    source := str "b"
    seed := str "b" }

/-- An already-oversized bank: 260 rank-90 entries followed by the rank-1
entry. -/
def c3Bank : List Item := (List.range 260).map c3Item ++ [zzzItem]

/-- A suggestion source returning nothing. -/
def c3Fetch : Str → List Str := fun _ => []

theorem c3map : c3Bank.map (fun x => lowerStr x.filename)
    = (List.range 260).map pad3 ++ [str "zzz"] := by
  simp only [c3Bank, List.map_append, List.map_map, List.map_cons, List.map_nil]
  congr 1

theorem c3map_nodup : (c3Bank.map (fun x => lowerStr x.filename)).Nodup := by
  rw [c3map, List.nodup_append]
  refine ⟨?_, List.nodup_singleton _, ?_⟩
  · refine List.Nodup.map_on ?_ (List.nodup_range _)
    intro x hx y hy hxy
    exact pad3_inj (by have := List.mem_range.mp hx; omega)
      (by have := List.mem_range.mp hy; omega) hxy
  · intro a ha ha2
    rw [List.mem_singleton] at ha2
    obtain ⟨n, _, hpn⟩ := List.mem_map.mp ha
    rw [ha2] at hpn
    exact pad3_ne_zzz n hpn

theorem c3ded : dedupeByFilename [] c3Bank = c3Bank := by
  refine dedupe_eq_self c3Bank [] ?_ c3map_nodup
  intro x hx
  refine ⟨?_, by simp⟩
  rcases List.mem_append.mp hx with h | h
  · obtain ⟨n, _, hn⟩ := List.mem_map.mp h
    rw [← hn]
    intro hcon
    cases hcon
  · rw [List.mem_singleton] at h
    rw [h]
    intro hcon
    cases hcon

theorem c3ni : expandNewItems c3Bank c3Fetch = [] := by
  simp only [expandNewItems]
  rw [fold_noop_seeds c3Fetch (bank_keys c3Bank).1 (bank_keys c3Bank).2 SEEDS
    (fun seed _ sug hsug => absurd hsug (by simp [c3Fetch]))]

theorem c3len : c3Bank.length = 261 := by
  simp [c3Bank]

/-- C3 counterexample: on an already-oversized bank (260 rank-90 entries,
then one rank-1 entry) with no new suggestions, the code keeps the first
260 entries in encounter order and drops the lowest-rank entry, while the
spec's sort-then-truncate description would keep it first — the persisted
bank differs from the spec's description. -/
theorem expand_bank_truncates_unsorted :
    expand_bank c3Bank c3Fetch ≠ truncSortedSpec c3Bank c3Fetch := by
  have hgt : MAX_BANK_SIZE < (dedupeByFilename [] (c3Bank ++ expandNewItems c3Bank c3Fetch)).length := by
    rw [c3ni, List.append_nil, c3ded, c3len]
    decide
  have hcode : expand_bank c3Bank c3Fetch = (List.range 260).map c3Item := by
    simp only [expand_bank]
    rw [c3ni, List.append_nil, c3ded, if_pos (by rw [c3len]; decide)]
    show ((List.range 260).map c3Item ++ [zzzItem]).take MAX_BANK_SIZE = _
    exact List.take_left' (by simp [MAX_BANK_SIZE])
  have hh : (pySortBy specRCFLe c3Bank).head? = some zzzItem := by
    rw [head?_pySortBy]
    refine minFirstBy_last specRCFLe ((List.range 260).map c3Item) zzzItem ?_
    intro a ha
    obtain ⟨n, _, hn⟩ := List.mem_map.mp ha
    rw [← hn]
    rfl
  have hspec : (truncSortedSpec c3Bank c3Fetch).head? = some zzzItem := by
    simp only [truncSortedSpec]
    rw [c3ni, List.append_nil, c3ded, if_pos (by rw [c3len]; decide)]
    cases hl : pySortBy specRCFLe c3Bank with
    | nil =>
      rw [hl] at hh
      cases hh
    | cons a t =>
      rw [hl, List.head?_cons, Option.some.injEq] at hh
      rw [show List.take MAX_BANK_SIZE (a :: t) = a :: List.take 259 t from rfl,
        List.head?_cons, hh]
  intro hcon
  have hc := congrArg List.head? hcon
  rw [hcode, hspec] at hc
  have hne : some (c3Item 0) ≠ some zzzItem := by decide
  exact hne hc

/-! ### Backslash-freedom through the unify pipeline (C8, C9) -/

theorem tmplGo_nb (g : List Str) (w : Str) :
    ∀ (t : Str), noBackslash t → tmplGo g w 0 t = .ok t := by
  intro t
  induction t with
  | nil =>
    intro _
    rfl
  | cons c rest ih =>
    intro h
    have hc : c ≠ '\\' := fun hx => h (by rw [← hx]; exact List.mem_cons_self c rest)
    have hr : noBackslash rest := fun hx => h (List.mem_cons_of_mem c hx)
    rw [tmplGo.eq_def]
    split
    · rename_i n hd rs heq1 heq2
      exact absurd heq1 (by omega)
    · rename_i n heq1 heq2
      exact absurd heq2 (by simp)
    · rename_i heq1 heq2
      exact absurd heq2 (by simp)
    · rename_i rs heq1 heq
      injection heq with h1 h2
      exact absurd h1 hc
    · rename_i c2 rest2 hne heq1 heq
      injection heq with h1 h2
      subst h1
      subst h2
      rw [ih hr]

theorem noBackslash_append {a b : Str} (ha : noBackslash a) (hb : noBackslash b) :
    noBackslash (a ++ b) := fun hx => (List.mem_append.mp hx).elim ha hb

theorem nb_sub {whole part : Str} (hw : noBackslash whole)
    (hsub : ∀ c ∈ part, c ∈ whole) : noBackslash part := fun hx => hw (hsub _ hx)

theorem nb_ite {b : Prop} [Decidable b] {x y : Str} (hx : noBackslash x)
    (hy : noBackslash y) : noBackslash (if b then x else y) := by
  split
  · exact hx
  · exact hy

theorem splitFirstCI_decomp :
    ∀ {h n p m s : Str}, splitFirstCI h n = some (p, m, s) → h = p ++ m ++ s := by
  intro h
  induction h with
  | nil =>
    intro n p m s hs
    simp only [splitFirstCI] at hs
    split at hs
    · cases hs
      simp
    · cases hs
  | cons c rest ih =>
    intro n p m s hs
    simp only [splitFirstCI] at hs
    split at hs
    · cases hs
      rw [List.nil_append, List.take_append_drop]
    · cases hrec : splitFirstCI rest n with
      | none =>
        rw [hrec] at hs
        cases hs
      | some pr =>
        obtain ⟨p', m', s'⟩ := pr
        rw [hrec] at hs
        cases hs
        rw [List.cons_append, List.cons_append, ← ih hrec]

theorem takeWhile_decomp (p : Char → Bool) :
    ∀ (l : Str), l = l.takeWhile p ++ l.drop (l.takeWhile p).length := by
  intro l
  induction l with
  | nil => rfl
  | cons c rest ih =>
    by_cases hc : p c = true
    · rw [List.takeWhile_cons, if_pos hc, List.length_cons, List.cons_append]
      rw [List.drop_succ_cons]
      exact congrArg (c :: ·) ih
    · rw [List.takeWhile_cons, if_neg hc]
      simp

theorem tagMatch_subset {o cl h pre openM attrs inner closeM post : Str}
    (hm : tagMatch o cl h = some (pre, openM, attrs, inner, closeM, post)) :
    (∀ c ∈ pre, c ∈ h) ∧ (∀ c ∈ openM, c ∈ h) ∧ (∀ c ∈ attrs, c ∈ h)
    ∧ (∀ c ∈ inner, c ∈ h) ∧ (∀ c ∈ closeM, c ∈ h) ∧ (∀ c ∈ post, c ∈ h) := by
  simp only [tagMatch] at hm
  split at hm
  · exact Option.noConfusion hm
  · rename_i p1 m1 rest heq1
    split at hm
    · rename_i rest2 heq2
      split at hm
      · exact Option.noConfusion hm
      · rename_i inner1 cm1 post1 heq3
        cases hm
        have hd1 := splitFirstCI_decomp heq1
        have hd2 := takeWhile_decomp (fun c => c != '>') rest
        rw [heq2] at hd2
        rw [hd2] at hd1
        rw [splitFirstCI_decomp heq3] at hd1
        refine ⟨?_, ?_, ?_, ?_, ?_, ?_⟩ <;>
          (intro c hc
           rw [hd1]
           simp only [List.mem_append, List.mem_cons]
           tauto)
    · exact Option.noConfusion hm

theorem litPairMatch_subset {o cl h pre openM inner closeM post : Str}
    (hm : litPairMatch o cl h = some (pre, openM, inner, closeM, post)) :
    ∀ c ∈ inner, c ∈ h := by
  simp only [litPairMatch] at hm
  split at hm
  · exact Option.noConfusion hm
  · rename_i p1 m1 rest heq1
    split at hm
    · exact Option.noConfusion hm
    · rename_i inner1 cm1 post1 heq2
      cases hm
      have hd1 := splitFirstCI_decomp heq1
      rw [splitFirstCI_decomp heq2] at hd1
      intro c hc
      rw [hd1]
      simp only [List.mem_append]
      tauto

theorem findMainOpen_subset :
    ∀ {s p m r : Str}, findMainOpen s = some (p, m, r) → ∀ c ∈ r, c ∈ s := by
  intro s
  induction s with
  | nil =>
    intro p m r hm
    cases hm
  | cons x rest ih =>
    intro p m r hm
    simp only [findMainOpen] at hm
    split at hm
    · cases hm
      intro c hc
      exact List.mem_of_mem_drop hc
    · split at hm
      · rename_i p1 m1 r1 heq
        cases hm
        intro c hc
        exact List.mem_cons_of_mem x (ih heq c hc)
      · exact Option.noConfusion hm

theorem mainCardMatch_subset {s inner : Str} (hm : mainCardMatch s = some inner) :
    ∀ c ∈ inner, c ∈ s := by
  simp only [mainCardMatch] at hm
  split at hm
  · exact Option.noConfusion hm
  · rename_i p1 m1 rest heq1
    split at hm
    · exact Option.noConfusion hm
    · rename_i inner1 cm1 post1 heq2
      cases hm
      intro c hc
      refine findMainOpen_subset heq1 c ?_
      rw [splitFirstCI_decomp heq2]
      simp only [List.mem_append]
      tauto

theorem mem_stripTagsGo : ∀ (s : Str) (n : Nat) (c : Char), c ∈ stripTagsGo n s → c ∈ s := by
  intro s
  induction s with
  | nil =>
    intro n c hc
    cases n <;> cases hc
  | cons x rest ih =>
    intro n c hc
    cases n with
    | succ n => exact List.mem_cons_of_mem x (ih n c hc)
    | zero =>
      rw [stripTagsGo.eq_def] at hc
      split at hc
      · rename_i n hd rs heq1 heq2
        exact absurd heq1 (by omega)
      · rename_i n heq1 heq2
        exact absurd heq2 (by simp)
      · rename_i heq1 heq2
        exact absurd heq2 (by simp)
      · rename_i c2 rest2 heq1 heq
        injection heq with h1 h2
        subst h1
        subst h2
        split at hc
        · split at hc
          · rename_i k heq2
            exact List.mem_cons_of_mem x (ih k c hc)
          · rcases List.mem_cons.mp hc with h | h
            · rw [h]
              exact List.mem_cons_self x rest
            · exact List.mem_cons_of_mem x (ih 0 c h)
        · rcases List.mem_cons.mp hc with h | h
          · rw [h]
            exact List.mem_cons_self x rest
          · exact List.mem_cons_of_mem x (ih 0 c h)

theorem mem_stripTags {s : Str} {c : Char} (h : c ∈ stripTags s) : c ∈ s :=
  mem_stripTagsGo s 0 c h

theorem mem_splitlines_len :
    ∀ (n : Nat) (s : Str), s.length ≤ n → ∀ p ∈ splitlines s, ∀ c ∈ p, c ∈ s := by
  intro n
  induction n with
  | zero =>
    intro s hs p hp
    rw [List.length_eq_zero.mp (Nat.le_zero.mp hs)] at hp
    cases hp
  | succ n ihn =>
    intro s hs p hp c hc
    rw [splitlines.eq_def] at hp
    split at hp
    · cases hp
    · rename_i rest
      rcases List.mem_cons.mp hp with h | h
      · rw [h] at hc
        cases hc
      · have hl : rest.length ≤ n := by
          simp at hs
          omega
        exact List.mem_cons_of_mem _ (List.mem_cons_of_mem _ (ihn rest hl p h c hc))
    · rename_i rest hne
      rcases List.mem_cons.mp hp with h | h
      · rw [h] at hc
        cases hc
      · have hl : rest.length ≤ n := by
          simp at hs
          omega
        exact List.mem_cons_of_mem _ (ihn rest hl p h c hc)
    · rename_i rest
      rcases List.mem_cons.mp hp with h | h
      · rw [h] at hc
        cases hc
      · have hl : rest.length ≤ n := by
          simp at hs
          omega
        exact List.mem_cons_of_mem _ (ihn rest hl p h c hc)
    · rename_i x rest hne1 hne2 hne3
      have hl : rest.length ≤ n := by
        simp at hs
        omega
      split at hp
      · rename_i heq2
        rw [List.mem_singleton] at hp
        rw [hp] at hc
        rw [List.mem_singleton] at hc
        rw [hc]
        exact List.mem_cons_self x rest
      · rename_i q qs heq2
        rcases List.mem_cons.mp hp with h | h
        · rw [h] at hc
          rcases List.mem_cons.mp hc with h2 | h2
          · rw [h2]
            exact List.mem_cons_self x rest
          · refine List.mem_cons_of_mem x (ihn rest hl q ?_ c h2)
            rw [heq2]
            exact List.mem_cons_self q qs
        · refine List.mem_cons_of_mem x (ihn rest hl p ?_ c hc)
          rw [heq2]
          exact List.mem_cons_of_mem q h

theorem mem_splitlines (s : Str) : ∀ p ∈ splitlines s, ∀ c ∈ p, c ∈ s :=
  mem_splitlines_len s.length s (Nat.le_refl _)

theorem upperChar_ne_bs {c : Char} (h : c ≠ '\\') : upperChar c ≠ '\\' := by
  unfold upperChar
  split
  · rename_i hcond
    rw [Bool.and_eq_true] at hcond
    have h1 := of_decide_eq_true hcond.1
    have h2 := of_decide_eq_true hcond.2
    rw [char_le_iff] at h1 h2
    rw [show ('a').toNat = 97 from by decide] at h1
    rw [show ('z').toNat = 122 from by decide] at h2
    intro heq
    have := congrArg Char.toNat heq
    rw [toNat_ofNat_of_lt (by omega), show ('\\').toNat = 92 from by decide] at this
    omega
  · exact h

theorem lowerChar_ne_bs {c : Char} (h : c ≠ '\\') : lowerChar c ≠ '\\' := by
  unfold lowerChar
  split
  · rename_i hcond
    rw [Bool.and_eq_true] at hcond
    have h1 := of_decide_eq_true hcond.1
    have h2 := of_decide_eq_true hcond.2
    rw [char_le_iff] at h1 h2
    rw [show ('A').toNat = 65 from by decide] at h1
    rw [show ('Z').toNat = 90 from by decide] at h2
    intro heq
    have := congrArg Char.toNat heq
    rw [toNat_ofNat_of_lt (by omega), show ('\\').toNat = 92 from by decide] at this
    omega
  · exact h

theorem nb_titleGo : ∀ (b : Bool) (s : Str), noBackslash s → noBackslash (titleGo b s) := by
  intro b s
  induction s generalizing b with
  | nil =>
    intro _ hx
    cases hx
  | cons c rest ih =>
    intro h hx
    have hc : c ≠ '\\' := fun he => h (by rw [← he]; exact List.mem_cons_self c rest)
    have hr : noBackslash rest := fun he => h (List.mem_cons_of_mem c he)
    simp only [titleGo] at hx
    split at hx
    · rcases List.mem_cons.mp hx with h2 | h2
      · split at h2
        · exact lowerChar_ne_bs hc h2.symm
        · exact upperChar_ne_bs hc h2.symm
      · exact ih true hr h2
    · rcases List.mem_cons.mp hx with h2 | h2
      · exact hc h2.symm
      · exact ih false hr h2

theorem nb_stemFallback {stem : Str} (h : noBackslash stem) :
    noBackslash (stemFallback stem) := by
  refine nb_titleGo false _ ?_
  intro hx
  obtain ⟨d, hd, hde⟩ := List.mem_map.mp hx
  split at hde
  · cases hde
  · rw [hde] at hd
    exact h hd

theorem nb_escPiece {d : Char} (hd : d ≠ '\\') : noBackslash (escPiece d) := by
  unfold escPiece
  repeat' split
  all_goals
    first
    | decide
    | (intro hx
       rw [List.mem_singleton] at hx
       exact hd hx.symm)

theorem nb_escape_html {s : Str} (h : noBackslash s) : noBackslash (escape_html s) := by
  intro hx
  unfold escape_html at hx
  obtain ⟨l, hl, hxl⟩ := List.mem_flatten.mp hx
  obtain ⟨d, hd, hde⟩ := List.mem_map.mp hl
  have hdn : d ≠ '\\' := fun he => h (he ▸ hd)
  rw [← hde] at hxl
  exact nb_escPiece hdn hxl

theorem nb_collapseWs {s : Str} (h : noBackslash s) : noBackslash (collapseWs s) := by
  intro hx
  rcases mem_collapseGo false s '\\' hx with ⟨h1, _⟩ | h1
  · exact h h1
  · cases h1

theorem nb_pyStrip {s : Str} (h : noBackslash s) : noBackslash (pyStrip s) :=
  fun hx => h (mem_pyStrip hx)

theorem nb_stripTags {s : Str} (h : noBackslash s) : noBackslash (stripTags s) :=
  fun hx => h (mem_stripTags hx)

theorem nb_indent_lines {s : Str} (n : Nat) (h : noBackslash s) :
    noBackslash (indent_lines s n) := by
  intro hx
  unfold indent_lines at hx
  rcases mem_joinWith (str "\n") _ '\\' hx with h1 | ⟨p, hp, hxp⟩
  · exact absurd h1 (by decide)
  · obtain ⟨line, hline, hle⟩ := List.mem_map.mp hp
    rw [← hle] at hxp
    rcases List.mem_append.mp hxp with h2 | h2
    · exact absurd (List.eq_of_mem_replicate h2) (by decide)
    · exact h (mem_splitlines s line hline '\\' h2)

theorem nb_ensure_viewport {html : Str} (hh : noBackslash html) :
    noBackslash (ensure_viewport_and_charset html) := by
  simp only [ensure_viewport_and_charset]
  split
  · exact hh
  · rename_i pre openM attrs head_inner closeM post hm
    obtain ⟨s1, s2, s3, s4, s5, s6⟩ := tagMatch_subset hm
    refine nb_ite hh ?_
    intro hx
    simp only [List.mem_append] at hx
    rcases hx with ((((((((h | h) | h) | h) | h) | (h | h)) | h) | h) | h)
    · exact hh (s1 _ h)
    · exact hh (s2 _ h)
    · exact hh (s3 _ h)
    · exact absurd h (by decide)
    · exact absurd h (by decide)
    · revert h
      refine nb_ite ?_ ?_ <;> decide
    · revert h
      refine nb_ite ?_ ?_ <;> decide
    · exact hh (s4 _ h)
    · exact hh (s5 _ h)
    · exact hh (s6 _ h)

theorem nb_ensure_stylesheet {html : Str} (hh : noBackslash html) :
    noBackslash (ensure_stylesheet_in_head html) := by
  unfold ensure_stylesheet_in_head
  split
  · exact hh
  · split
    · rename_i pre m post hm
      have hd := splitFirstCI_decomp hm
      intro hx
      simp only [List.mem_append] at hx
      rcases hx with (h | h) | h
      · exact hh (by rw [hd]; simp only [List.mem_append]; tauto)
      · exact absurd h (by decide)
      · exact hh (by rw [hd]; simp only [List.mem_append]; tauto)
    · exact hh

theorem nb_extract_title {html fallback : Str} (hh : noBackslash html)
    (hf : noBackslash fallback) : noBackslash (extract_title html fallback) := by
  unfold extract_title
  split
  · rename_i pre openM inner closeM post hm
    refine nb_pyStrip (nb_collapseWs ?_)
    exact nb_sub hh (litPairMatch_subset hm)
  · split
    · rename_i pre openM attrs inner closeM post hm
      refine nb_pyStrip (nb_collapseWs (nb_stripTags ?_))
      exact nb_sub hh (tagMatch_subset hm).2.2.2.1
    · exact hf

theorem nb_extract_body_inner {html : Str} (hh : noBackslash html) :
    noBackslash (extract_body_inner html) := by
  unfold extract_body_inner
  split
  · rename_i pre openM attrs inner closeM post hm
    exact nb_pyStrip (nb_sub hh (tagMatch_subset hm).2.2.2.1)
  · exact nb_pyStrip hh

theorem nb_extract_existing_main {body_inner rec : Str}
    (hh : noBackslash body_inner)
    (hm : extract_existing_main body_inner = some rec) : noBackslash rec := by
  unfold extract_existing_main at hm
  split at hm
  · split at hm
    · rename_i inner hmm
      cases hm
      exact nb_pyStrip (nb_sub hh (mainCardMatch_subset hmm))
    · exact Option.noConfusion hm
  · exact Option.noConfusion hm

theorem related_for_sub {fname : Str} {articles : List Article} {k : Nat} {a : Article}
    (ha : a ∈ related_for fname articles k) : a ∈ articles := by
  unfold related_for at ha
  have hsort : ∀ (p : Article → Bool) (x : Article),
      x ∈ pySortBy relKeyLe (articles.filter p) → x ∈ articles :=
    fun p x hx =>
      List.mem_of_mem_filter ((pySortBy_perm relKeyLe (articles.filter p)).mem_iff.mp hx)
  have ht := List.mem_of_mem_take ha
  split at ht
  · rcases mem_pushList ht with h | h
    · rcases mem_pushList h with h2 | h2
      · rcases mem_pushList h2 with h3 | h3
        · cases h3
        · exact hsort _ _ h3
      · exact hsort _ _ h2
    · exact hsort _ _ h
  · rcases mem_pushList ht with h | h
    · rcases mem_pushList h with h2 | h2
      · cases h2
      · exact hsort _ _ h2
    · exact hsort _ _ h

theorem nb_related_links {rel : List Article}
    (hrel : ∀ a ∈ rel, noBackslash a.url ∧ noBackslash a.title) :
    noBackslash (related_links_html rel) := by
  simp only [related_links_html]
  split
  · decide
  · intro hx
    rcases mem_joinWith (str "\n") _ '\\' hx with h1 | ⟨p, hp, hxp⟩
    · exact absurd h1 (by decide)
    · obtain ⟨a, ha, hae⟩ := List.mem_map.mp hp
      obtain ⟨hu, ht⟩ := hrel a ha
      rw [← hae] at hxp
      simp only [List.mem_append] at hxp
      rcases hxp with (((h2 | h2) | h2) | h2) | h2
      · exact absurd h2 (by decide)
      · exact nb_escape_html hu h2
      · exact absurd h2 (by decide)
      · exact nb_escape_html ht h2
      · exact absurd h2 (by decide)

theorem nb_build_wrapper {today page_title original_inner : Str} {rel : List Article}
    (htd : noBackslash today) (hpt : noBackslash page_title)
    (hoi : noBackslash original_inner)
    (hrel : ∀ a ∈ rel, noBackslash a.url ∧ noBackslash a.title) :
    noBackslash (build_wrapper today page_title original_inner rel) := by
  intro hx
  unfold build_wrapper at hx
  simp only [List.mem_append] at hx
  rcases hx with (((((((((h | h) | h) | h) | h) | h) | h) | h) | h) | h) | h
  · exact absurd h (by decide)
  · exact absurd h (by decide)
  · exact nb_escape_html hpt h
  · exact absurd h (by decide)
  · exact nb_indent_lines 4 hoi h
  · exact absurd h (by decide)
  · exact nb_related_links hrel h
  · exact absurd h (by decide)
  · exact htd h
  · exact absurd h (by decide)
  · exact absurd h (by decide)

theorem set_body_ok (html new : Str) (hh : noBackslash html) (hn : noBackslash new) :
    (set_body_preserve_attrs html new).isOk = true := by
  simp only [set_body_preserve_attrs]
  split
  · rfl
  · rename_i pre openM attrs inner closeM post hm
    have hattrs : noBackslash attrs := nb_sub hh (tagMatch_subset hm).2.2.1
    have hT : noBackslash (str "<body" ++ attrs ++ str ">\n" ++ new ++ str "\n</body>") := by
      intro hx
      simp only [List.mem_append] at hx
      rcases hx with (((h | h) | h) | h) | h
      · exact absurd h (by decide)
      · exact hattrs h
      · exact absurd h (by decide)
      · exact hn h
      · exact absurd h (by decide)
    rw [show tmplExpand [attrs, inner] (openM ++ attrs ++ ['>'] ++ inner ++ closeM)
          (str "<body" ++ attrs ++ str ">\n" ++ new ++ str "\n</body>")
        = .ok (str "<body" ++ attrs ++ str ">\n" ++ new ++ str "\n</body>") from
      tmplGo_nb _ _ _ hT]
    rfl

theorem ensure_canonical_ok (html sb fn : Str) (hsb : noBackslash sb)
    (hfn : noBackslash fn) : (ensure_canonical html sb fn).isOk = true := by
  simp only [ensure_canonical]
  split
  · rfl
  · split
    · rfl
    · cases hsp : splitFirstCI html (str "</head>") with
      | none => rfl
      | some tri =>
        obtain ⟨pre, closeM, post⟩ := tri
        have hT : noBackslash (str "  <link rel=\"canonical\" href=\"" ++ sb ++ ['/'] ++ fn
            ++ str "\">\n" ++ str "</head>") := by
          intro hx
          simp only [List.mem_append] at hx
          rcases hx with ((((h | h) | h) | h) | h) | h
          · exact absurd h (by decide)
          · exact hsb h
          · exact absurd h (by decide)
          · exact hfn h
          · exact absurd h (by decide)
          · exact absurd h (by decide)
        show (match tmplExpand [] closeM
              (str "  <link rel=\"canonical\" href=\"" ++ sb ++ ['/'] ++ fn
                ++ str "\">\n" ++ str "</head>") with
          | Except.error e => Except.error e
          | Except.ok r => Except.ok (pre ++ r ++ post)).isOk = true
        rw [show tmplExpand [] closeM
              (str "  <link rel=\"canonical\" href=\"" ++ sb ++ ['/'] ++ fn
                ++ str "\">\n" ++ str "</head>")
            = .ok (str "  <link rel=\"canonical\" href=\"" ++ sb ++ ['/'] ++ fn
                ++ str "\">\n" ++ str "</head>") from tmplGo_nb _ _ _ hT]
        rfl

theorem unify_isOk_of (site_base fname html2 wrapper : Str)
    (h2 : noBackslash html2) (hw : noBackslash wrapper)
    (hsb : noBackslash site_base) (hfn : noBackslash fname) :
    (match set_body_preserve_attrs html2 wrapper with
     | .error e => (.error e : Except String Str)
     | .ok h3 => ensure_canonical h3 site_base fname).isOk = true := by
  cases hsb2 : set_body_preserve_attrs html2 wrapper with
  | error e =>
    have hx := set_body_ok html2 wrapper h2 hw
    rw [hsb2] at hx
    exact absurd hx (by simp [Except.isOk, Except.toBool])
  | ok h3 =>
    exact ensure_canonical_ok h3 site_base fname hsb hfn

/-- C8 (corrected): the per-page unification transform never raises on
backslash-free inputs (document text, site base, filename, stem, date,
corpus urls and titles), and each structurally missing region only skips
its own edit: with no head element the charset/viewport insertion is the
identity, and with no body element the body-replacement step returns the
text unchanged.  (With a backslash in the body, the `re.sub` replacement
template can raise, so full totality fails.) -/
theorem unify_best_effort (today site_base : Str) (articles : List Article)
    (fname stem html0 : Str)
    (h0 : noBackslash html0) (hsb : noBackslash site_base) (hfn : noBackslash fname)
    (hst : noBackslash stem) (htd : noBackslash today)
    (harts : ∀ a ∈ articles, noBackslash a.url ∧ noBackslash a.title) :
    (unifyPage today site_base articles fname stem html0).isOk = true
    ∧ (∀ html, headMatch html = none → ensure_viewport_and_charset html = html)
    ∧ (∀ html new, bodyMatch html = none → set_body_preserve_attrs html new = .ok html) := by
  refine ⟨?_, ?_, ?_⟩
  · simp only [unifyPage]
    refine unify_isOk_of site_base fname _ _ ?_ ?_ hsb hfn
    · exact nb_ensure_stylesheet (nb_ensure_viewport h0)
    · refine nb_build_wrapper htd ?_ ?_ ?_
      · exact nb_extract_title (nb_ensure_stylesheet (nb_ensure_viewport h0))
          (nb_stemFallback hst)
      · split
        · rename_i r hr
          exact nb_extract_existing_main
            (nb_extract_body_inner (nb_ensure_stylesheet (nb_ensure_viewport h0))) hr
        · exact nb_extract_body_inner (nb_ensure_stylesheet (nb_ensure_viewport h0))
      · exact fun a ha => harts a (related_for_sub ha)
  · intro html hm
    simp only [ensure_viewport_and_charset, hm]
  · intro html new hm
    simp only [set_body_preserve_attrs, hm]

/-- Witness for `unify_best_effort`: a small well-formed page unifies
without error. -/
theorem unify_best_effort_witness :
    (unifyPage (str "2026-10-12") (str "https://e.com") [] (str "x.html") (str "x")
        (str "<head></head><body>hi</body>")).isOk = true
    ∧ (∀ html, headMatch html = none → ensure_viewport_and_charset html = html)
    ∧ (∀ html new, bodyMatch html = none → set_body_preserve_attrs html new = .ok html) :=
  unify_best_effort (str "2026-10-12") (str "https://e.com") [] (str "x.html") (str "x")
    (str "<head></head><body>hi</body>") (by decide) (by decide) (by decide) (by decide)
    (by decide) (fun a ha => absurd ha (by simp))

/-- C8 counterexample: on a document whose body open tag carries the
attribute text ` \c`, the body replacement's `re.sub` template expansion
raises (`bad escape`), so the unify transform is not total on malformed
documents. -/
theorem unify_raises_on_backslash :
    (unifyPage (str "2026-10-12") [] [] (str "x.html") (str "x")
        (str "<body \\c>x</body>")).isOk = false := by decide

theorem set_body_frame_core (html new pre openM attrs inner closeM post : Str)
    (hm : bodyMatch html = some (pre, openM, attrs, inner, closeM, post))
    (ha : noBackslash attrs) (hn : noBackslash new) :
    set_body_preserve_attrs html new
      = .ok (pre ++ (str "<body" ++ attrs ++ str ">\n" ++ new ++ str "\n</body>") ++ post) := by
  simp only [set_body_preserve_attrs, hm]
  have hT : noBackslash (str "<body" ++ attrs ++ str ">\n" ++ new ++ str "\n</body>") := by
    intro hx
    simp only [List.mem_append] at hx
    rcases hx with (((h | h) | h) | h) | h
    · exact absurd h (by decide)
    · exact ha h
    · exact absurd h (by decide)
    · exact hn h
    · exact absurd h (by decide)
  rw [show tmplExpand [attrs, inner] (openM ++ attrs ++ ['>'] ++ inner ++ closeM)
        (str "<body" ++ attrs ++ str ">\n" ++ new ++ str "\n</body>")
      = .ok (str "<body" ++ attrs ++ str ">\n" ++ new ++ str "\n</body>") from
    tmplGo_nb _ _ _ hT]

/-- C9 (corrected): when the document has a body element and neither the
body's attribute text nor the new content contains a backslash, the
replacement changes only the text strictly between the body open tag and
the body close tag: the output is the unchanged text before the open tag,
then `<body` with the input's attribute text, then the new inner content,
then `</body>` and the unchanged text after the close tag.  (A backslash
in the attribute text reaches `re.sub`'s replacement-template processing,
which can substitute old content into the attributes or raise.) -/
theorem set_body_frame (html new pre openM attrs inner closeM post : Str)
    (hm : bodyMatch html = some (pre, openM, attrs, inner, closeM, post))
    (ha : noBackslash attrs) (hn : noBackslash new) :
    set_body_preserve_attrs html new
      = .ok (pre ++ (str "<body" ++ attrs ++ str ">\n" ++ new ++ str "\n</body>") ++ post) :=
  set_body_frame_core html new pre openM attrs inner closeM post hm ha hn

/-- Witness for `set_body_frame`: a body with an attribute and
surrounding text is replaced in place. -/
theorem set_body_frame_witness :
    set_body_preserve_attrs (str "<p>a</p><body id=\"x\">old</body><i>t</i>") (str "NEW")
      = .ok (str "<p>a</p>"
          ++ (str "<body" ++ str " id=\"x\"" ++ str ">\n" ++ str "NEW" ++ str "\n</body>")
          ++ str "<i>t</i>") :=
  set_body_frame (str "<p>a</p><body id=\"x\">old</body><i>t</i>") (str "NEW")
    (str "<p>a</p>") (str "<body") (str " id=\"x\"") (str "old") (str "</body>")
    (str "<i>t</i>") (by rfl) (by decide) (by decide)

/-- C9 counterexample: with `\2` in the body's attribute text, the
replacement substitutes the old body content into the attributes: the
output's body open tag is `<body x>`, not the input's `<body \2>` — the
attribute text is not preserved. -/
theorem set_body_not_frame :
    set_body_preserve_attrs (str "<body \\2>x</body>") (str "y")
      = .ok (str "<body x>\ny\n</body>")
    ∧ set_body_preserve_attrs (str "<body \\2>x</body>") (str "y")
      ≠ .ok (str "<body \\2>\ny\n</body>") := by
  constructor
  · decide
  · decide


/-! ### Unify idempotence (C1): accumulator scanners for stack-safe
evaluation of long documents.  `splitFirstCIAcc` is the tail-recursive
form of `splitFirstCI`, proved equal to it. -/

def splitFirstCIAcc (needle : Str) : Str → Str → Option (Str × Str × Str)
  | acc, [] => if needle = [] then some (acc.reverse, [], []) else none
  | acc, c :: rest =>
    if hdMatchCI' needle (c :: rest) then
      some (acc.reverse, (c :: rest).take needle.length, (c :: rest).drop needle.length)
    else splitFirstCIAcc needle (c :: acc) rest

theorem splitFirstCIAcc_spec (needle : Str) :
    ∀ (s acc : Str),
      splitFirstCIAcc needle acc s
        = (splitFirstCI s needle).map
            (fun pr => (acc.reverse ++ pr.1, pr.2.1, pr.2.2)) := by
  intro s
  induction s with
  | nil =>
    intro acc
    simp only [splitFirstCIAcc, splitFirstCI]
    split
    · simp
    · simp
  | cons c rest ih =>
    intro acc
    simp only [splitFirstCIAcc, splitFirstCI]
    split
    · simp
    · rw [ih (c :: acc)]
      cases splitFirstCI rest needle with
      | none => simp
      | some pr =>
        obtain ⟨p, m, t⟩ := pr
        simp [List.append_assoc]

theorem splitFirstCI_eq_acc (s needle : Str) :
    splitFirstCI s needle = splitFirstCIAcc needle [] s := by
  rw [splitFirstCIAcc_spec]
  cases splitFirstCI s needle with
  | none => rfl
  | some pr =>
    obtain ⟨p, m, t⟩ := pr
    simp

/-- `tagMatch` with the tail-recursive scanner. -/
def tagMatchAcc (openLit closeLit html : Str) :
    Option (Str × Str × Str × Str × Str × Str) :=
  match splitFirstCIAcc openLit [] html with
  | none => none
  | some (pre, openM, rest) =>
    let attrs := rest.takeWhile (fun c => c != '>')
    match rest.drop attrs.length with
    | '>' :: rest2 =>
      match splitFirstCIAcc closeLit [] rest2 with
      | none => none
      | some (inner, closeM, post) => some (pre, openM, attrs, inner, closeM, post)
    | _ => none

theorem tagMatch_eq_acc (o cl h : Str) : tagMatch o cl h = tagMatchAcc o cl h := by
  unfold tagMatch tagMatchAcc
  simp only [splitFirstCI_eq_acc]

/-- `litPairMatch` with the tail-recursive scanner. -/
def litPairMatchAcc (openLit closeLit html : Str) :
    Option (Str × Str × Str × Str × Str) :=
  match splitFirstCIAcc openLit [] html with
  | none => none
  | some (pre, openM, rest) =>
    match splitFirstCIAcc closeLit [] rest with
    | none => none
    | some (inner, closeM, post) => some (pre, openM, inner, closeM, post)

theorem litPairMatch_eq_acc (o cl h : Str) : litPairMatch o cl h = litPairMatchAcc o cl h := by
  unfold litPairMatch litPairMatchAcc
  simp only [splitFirstCI_eq_acc]

/-- The failing input for unify idempotence: a plain head and a two-line
body. -/
def doc1 : Str := str "<head></head><body><p>a</p>\n<p>b</p></body>"

/-- The code's own first-pass output on `doc1` (checked below). -/
def u1out : Str := str "<head>\n  <meta charset=\"UTF-8\">\n  <meta name=\"viewport\" content=\"width=device-width, initial-scale=1.0\">\n  <link rel=\"stylesheet\" href=\"style.css\">\n</head><body>\n<!-- SITE_WRAPPER_START -->\n<div class=\"site\">\n\n  <header class=\"header\">\n    <div class=\"brand\">\n      <div class=\"brand-title\">CS Homework &amp; Exam Solutions</div>\n      <div class=\"brand-sub\">X</div>\n    </div>\n\n    <nav class=\"nav\">\n      <a href=\"index.html#top\">Home</a>\n      <a href=\"index.html#top-examples\">Top Examples</a>\n      <a href=\"articles.html\">All Articles</a>\n      <a href=\"index.html#faq\">FAQ</a>\n    </nav>\n  </header>\n\n  <main class=\"card\">\n    <p>a</p>\n    <p>b</p>\n  </main>\n\n  <section class=\"card\">\n    <h2>Related Examples</h2>\n    <p>Auto-generated links to help you continue practicing.</p>\n    <ul class=\"links\">\n      <li><span style=\"color:#a9b7d6;\">No related posts yet.</span></li>\n    </ul>\n  </section>\n\n  <div class=\"footer\">\n    <span class=\"badge\">Updated • 2026-10-12</span>\n  </div>\n\n</div>\n<!-- SITE_WRAPPER_END -->\n</body>"

/-- The head region of `u1out` (everything before its body open tag). -/
def u1pre : Str := str "<head>\n  <meta charset=\"UTF-8\">\n  <meta name=\"viewport\" content=\"width=device-width, initial-scale=1.0\">\n  <link rel=\"stylesheet\" href=\"style.css\">\n</head>"

/-- The body inner region of `u1out`. -/
def u1inner : Str := str "\n<!-- SITE_WRAPPER_START -->\n<div class=\"site\">\n\n  <header class=\"header\">\n    <div class=\"brand\">\n      <div class=\"brand-title\">CS Homework &amp; Exam Solutions</div>\n      <div class=\"brand-sub\">X</div>\n    </div>\n\n    <nav class=\"nav\">\n      <a href=\"index.html#top\">Home</a>\n      <a href=\"index.html#top-examples\">Top Examples</a>\n      <a href=\"articles.html\">All Articles</a>\n      <a href=\"index.html#faq\">FAQ</a>\n    </nav>\n  </header>\n\n  <main class=\"card\">\n    <p>a</p>\n    <p>b</p>\n  </main>\n\n  <section class=\"card\">\n    <h2>Related Examples</h2>\n    <p>Auto-generated links to help you continue practicing.</p>\n    <ul class=\"links\">\n      <li><span style=\"color:#a9b7d6;\">No related posts yet.</span></li>\n    </ul>\n  </section>\n\n  <div class=\"footer\">\n    <span class=\"badge\">Updated • 2026-10-12</span>\n  </div>\n\n</div>\n<!-- SITE_WRAPPER_END -->\n"

/-- `extract_body_inner u1out` (the stripped body content). -/
def u1bi : Str := str "<!-- SITE_WRAPPER_START -->\n<div class=\"site\">\n\n  <header class=\"header\">\n    <div class=\"brand\">\n      <div class=\"brand-title\">CS Homework &amp; Exam Solutions</div>\n      <div class=\"brand-sub\">X</div>\n    </div>\n\n    <nav class=\"nav\">\n      <a href=\"index.html#top\">Home</a>\n      <a href=\"index.html#top-examples\">Top Examples</a>\n      <a href=\"articles.html\">All Articles</a>\n      <a href=\"index.html#faq\">FAQ</a>\n    </nav>\n  </header>\n\n  <main class=\"card\">\n    <p>a</p>\n    <p>b</p>\n  </main>\n\n  <section class=\"card\">\n    <h2>Related Examples</h2>\n    <p>Auto-generated links to help you continue practicing.</p>\n    <ul class=\"links\">\n      <li><span style=\"color:#a9b7d6;\">No related posts yet.</span></li>\n    </ul>\n  </section>\n\n  <div class=\"footer\">\n    <span class=\"badge\">Updated • 2026-10-12</span>\n  </div>\n\n</div>\n<!-- SITE_WRAPPER_END -->"

/-- The content the second pass recovers from the wrapper: the original
two lines, but with the first pass's four-space indent still on the
second line. -/
def u1oi : Str := str "<p>a</p>\n    <p>b</p>"

theorem c1_first :
    unifyPage (str "2026-10-12") [] [] (str "x.html") (str "x") doc1 = .ok u1out := by
  decide

theorem c1_tm : titleMatch u1out = none := by
  unfold titleMatch
  rw [litPairMatch_eq_acc]
  rfl

theorem c1_h1 : h1Match u1out = none := by
  unfold h1Match
  rw [tagMatch_eq_acc]
  rfl

theorem c1_bm :
    bodyMatch u1out = some (u1pre, str "<body", [], u1inner, str "</body>", []) := by
  unfold bodyMatch
  rw [tagMatch_eq_acc]
  rfl

theorem c1_e1 : ensure_viewport_and_charset u1out = u1out := by decide

theorem c1_e2 : ensure_stylesheet_in_head u1out = u1out := by decide

theorem c1_e3 : extract_title u1out (stemFallback (str "x")) = str "X" := by
  simp only [extract_title, c1_tm, c1_h1]
  decide

theorem c1_e4 : extract_body_inner u1out = u1bi := by
  simp only [extract_body_inner, c1_bm]
  decide

theorem c1_e5 : extract_existing_main u1bi = some u1oi := by decide

theorem c1_second :
    unifyPage (str "2026-10-12") [] [] (str "x.html") (str "x") u1out
      = .ok (u1pre ++ (str "<body" ++ [] ++ str ">\n"
          ++ build_wrapper (str "2026-10-12") (str "X") u1oi [] ++ str "\n</body>") ++ []) := by
  have hcan : ∀ (h3 : Str), ensure_canonical h3 [] (str "x.html") = .ok h3 := by
    intro h3
    simp only [ensure_canonical]
    simp
  simp only [unifyPage]
  rw [c1_e1, c1_e2, c1_e3, c1_e4]
  simp only [c1_e5]
  rw [set_body_frame_core u1out _ u1pre (str "<body") [] u1inner (str "</body>") []
    c1_bm (by decide) (by decide)]
  exact hcan _

/-- C1: unify is NOT idempotent.  On a plain two-line body the first pass
produces `u1out`; running the transform again on `u1out` does not return
`u1out`: the recovered content keeps the first pass's four-space indent on
its second line and is indented again, so every further pass adds four
more spaces. -/
theorem unify_not_idempotent :
    unifyPage (str "2026-10-12") [] [] (str "x.html") (str "x") doc1 = .ok u1out
    ∧ unifyPage (str "2026-10-12") [] [] (str "x.html") (str "x") u1out ≠ .ok u1out := by
  constructor
  · exact c1_first
  · rw [c1_second]
    decide
